import Mathlib

/-!
Verification of the FBO nightly-feed ETL pipeline (FBONightly).

This file gives a shallow embedding of the Python sources
`model.py`, `etl.py` and `sql.py` of the FBONightly package:
the tag-line lexer (`FBOTableEntry.parse_line`), the record splitter
(`Nightlies.get_nightly_records`), the field assembler
(`FBOTableEntry.parse_nightly` / `cleanup` / `fix_date`), the
insert-query builder with its sha256 content hash
(`DBConn.make_query_dict`, including a full executable SHA-256),
and the load engine (`Nightlies.etl_from_filename` / `etl_from_dir`)
over a relational store modelled as per-table row lists with the
`UNIQUE (sha256)` insert-or-ignore semantics of the generated schema.

Python strings are embedded as `List Char`, Python dicts (which keep
insertion order) as association lists, and Python exceptions as an
explicit error type `PyErr` threaded through a result type `Res`.
-/

/-- Python exceptions that the embedded code can raise.
`parseErr` is `model.ParseError`; `attrError` is the `AttributeError`
raised by `None.lower()`; `keyError k` is `KeyError(k)`; `valueError`
covers `int()` / `datetime.date` failures; `typeError` covers string
operations applied to a non-string value; `indexError` is `record[0]`
on an empty list; `sysExit` is the `sys.exit(-1)` call in
`etl_from_filename`. -/
inductive PyErr : Type where
  | parseErr : PyErr
  | attrError : PyErr
  | keyError : List Char → PyErr
  | valueError : PyErr
  | typeError : PyErr
  | indexError : PyErr
  | sysExit : PyErr
deriving DecidableEq, Repr

/-- Result of running a piece of Python code: a value or a raised exception. -/
inductive Res (α : Type) : Type where
  | ok : α → Res α
  | err : PyErr → Res α
deriving DecidableEq, Repr

/-- Shorthand turning a string literal into the `List Char` embedding of a Python string. -/
def lc (s : String) : List Char := s.toList

/-- Python `str.lower()` (the tags in the feed are ASCII). -/
def lowerL (s : List Char) : List Char := s.map Char.toLower

/-- Python `str.upper()` (the tags in the feed are ASCII). -/
def upperL (s : List Char) : List Char := s.map Char.toUpper

/-- The characters stripped by Python `str.strip()` on ASCII text. -/
def pySpace (c : Char) : Bool :=
  c = ' ' ∨ c = '\t' ∨ c = '\n' ∨ c = '\x0b' ∨ c = '\x0c' ∨ c = '\r'

/-- `not line.strip()`: the line is empty or all whitespace. -/
def isBlank (line : List Char) : Bool := line.all pySpace

/-- Python `s.split(c, 1)` when `c` occurs: the part before the first
occurrence of `c` and the part after it; `none` when `c` is absent. -/
def splitOnFirst (c : Char) : List Char → Option (List Char × List Char)
  | [] => none
  | x :: xs =>
    if x = c then some ([], xs)
    else (splitOnFirst c xs).map (fun p => (x :: p.1, p.2))

/-- `FBOTableEntry.parse_line` (model.py): if the line starts with `<`
and contains `>`, split at the first `>`, discard attributes after a
space, and return the tag (without the leading `<`) and the remainder;
otherwise the Python code raises `ParseError`, embedded as `none`. -/
def parse_line (line : List Char) : Option (List Char × List Char) :=
  match line with
  | [] => none
  | c :: rest =>
    if c = '<' then
      match splitOnFirst '>' (c :: rest) with
      | none => none
      | some (before, after) =>
        let tagPart :=
          match splitOnFirst ' ' before with
          | some (b0, _) => b0
          | none => before
        some (tagPart.drop 1, after)
    else none

/-- The fixed ignore list of `FBOTableEntry.is_ignored_tag` (model.py). -/
def ignoredTags : List (List Char) :=
  [lc "a", lc "br", lc "div", lc "em", lc "h1", lc "h2", lc "h3", lc "h4",
   lc "h5", lc "hr", lc "html", lc "label", lc "ol", lc "p", lc "span",
   lc "strong", lc "table", lc "tbody", lc "ul"]

/-- `FBOTableEntry.is_ignored_tag` (model.py): strip a leading `/` and
test membership in the fixed ignore list. -/
def is_ignored_tag (tag : List Char) : Bool :=
  let t := match tag with
    | '/' :: rest => rest
    | other => other
  ignoredTags.contains t

/-- A `datetime.date` value: the constructor validates the ranges, so a
stored date always satisfies them. Here it is a plain record; validity
is checked where `datetime.date(...)` is called (`fix_date`). -/
structure PyDate : Type where
  year : Nat
  month : Nat
  day : Nat
deriving DecidableEq, Repr

/-- A value held in a parsed-record dict: a string, or the
`datetime.date` produced by `cleanup`. -/
inductive Val : Type where
  | str : List Char → Val
  | date : PyDate → Val
deriving DecidableEq, Repr

/-- A Python dict with string keys, embedded as an association list in
insertion order (Python dicts preserve insertion order; assigning to an
existing key keeps its position, assigning a new key appends). -/
def Dict : Type := List (List Char × Val)

instance : DecidableEq Dict := by
  unfold Dict
  infer_instance

instance : Repr Dict := by
  unfold Dict
  infer_instance

/-- `d[k]` as an option: the value at key `k`. -/
def dictGet (k : List Char) : Dict → Option Val
  | [] => none
  | (k2, v) :: rest => if k2 = k then some v else dictGet k rest

/-- `d[k] = v`: replace in place if the key exists, else append. -/
def dictSet (k : List Char) (v : Val) : Dict → Dict
  | [] => [(k, v)]
  | (k2, v2) :: rest =>
    if k2 = k then (k2, v) :: rest else (k2, v2) :: dictSet k v rest

/-- `d.pop(k)` ignoring the result: remove the key if present. -/
def dictRemove (k : List Char) : Dict → Dict
  | [] => []
  | (k2, v2) :: rest =>
    if k2 = k then dictRemove k rest else (k2, v2) :: dictRemove k rest

/-- `list(d.keys())` in insertion order. -/
def dictKeys (d : Dict) : List (List Char) := d.map (fun p => p.1)

/-- `list(d.values())` in insertion order. -/
def dictValues (d : Dict) : List Val := d.map (fun p => p.2)

/-- Python `int(s)` restricted to the digit strings that occur in feed
date fields: `some` of the numeric value on a nonempty all-digit
string, `none` (a `ValueError`) otherwise. -/
def pyNat (s : List Char) : Option Nat :=
  if s ≠ [] ∧ s.all Char.isDigit then
    some (s.foldl (fun acc c => acc * 10 + (c.toNat - 48)) 0)
  else none

/-- Gregorian leap year, as used by `datetime.date` validation. -/
def isLeap (y : Nat) : Bool := y % 4 = 0 ∧ (y % 100 ≠ 0 ∨ y % 400 = 0)

/-- Days in a month, as used by `datetime.date` validation. -/
def daysInMonth (y m : Nat) : Nat :=
  if m = 2 then (if isLeap y then 29 else 28)
  else if m = 4 ∨ m = 6 ∨ m = 9 ∨ m = 11 then 30
  else 31

/-- The range checks performed by the `datetime.date` constructor. -/
def validDate (y m d : Nat) : Bool :=
  1 ≤ y ∧ y ≤ 9999 ∧ 1 ≤ m ∧ m ≤ 12 ∧ 1 ≤ d ∧ d ≤ daysInMonth y m

/-- `FBOTableEntry.fix_date` (model.py): `DATE` is a 4-character
month/day string, `YEAR` a 2-digit year; years below 90 get 2000 added,
years 90 to 99 get 1900 added; the result is `datetime.date(year,
int(date[0:2]), int(date[2:4]))`. `int()` or constructor failures
raise `ValueError`. -/
def fix_date (date : List Char) (year : List Char) : Res PyDate :=
  match pyNat year with
  | none => .err .valueError
  | some y0 =>
    let y := if y0 < 90 then y0 + 2000 else if y0 ≤ 99 then y0 + 1900 else y0
    match pyNat (date.take 2), pyNat ((date.drop 2).take 2) with
    | some m, some d =>
      if validDate y m d then .ok ⟨y, m, d⟩ else .err .valueError
    | _, _ => .err .valueError

/-- `FBOTableEntry.rename_field` (model.py): `record[to_name] =
record.pop(from_name)` when `from_name` is present — the popped value
lands at `to_name`'s existing position, or is appended. -/
def rename_field (record : Dict) (fromName toName : List Char) : Dict :=
  match dictGet fromName record with
  | none => record
  | some v => dictSet toName v (dictRemove fromName record)

/-- Extract the string of a value; Python string slicing on a non-string
raises `TypeError`. -/
def valStr : Val → Res (List Char)
  | .str s => .ok s
  | .date _ => .err .typeError

/-- The fixed sequence of `rename_field` calls in
`FBOTableEntry.cleanup` (model.py), in source order. -/
def applyRenames (r2 : Dict) : Dict :=
  let r3 := rename_field r2 (lc "address") (lc "email")
  let r3 := rename_field r3 (lc "awdamt") (lc "award_amount")
  let r3 := rename_field r3 (lc "awddate") (lc "award_date")
  let r3 := rename_field r3 (lc "awdnbr") (lc "award_number")
  let r3 := rename_field r3 (lc "archdate") (lc "archive_date")
  let r3 := rename_field r3 (lc "classcod") (lc "class_code")
  let r3 := rename_field r3 (lc "linenbr") (lc "line_number")
  let r3 := rename_field r3 (lc "offadd") (lc "office_address")
  let r3 := rename_field r3 (lc "popcountry") (lc "pop_country")
  let r3 := rename_field r3 (lc "popzip") (lc "pop_zip")
  let r3 := rename_field r3 (lc "popaddress") (lc "pop_address")
  rename_field r3 (lc "solnbr") (lc "solicitation_number")

/-- The tail of `FBOTableEntry.cleanup` (model.py), after the
`respdate` handling: apply the fixed renames, then replace `date` with
`fix_date(record['date'], record.pop('year'))` — `record['date']` is
evaluated before the pop, so a missing `date` raises
`KeyError('date')`, then a missing `year` raises `KeyError('year')`. -/
def cleanupMain (r2 : Dict) : Res Dict :=
  let r3 := applyRenames r2
  match dictGet (lc "date") r3 with
  | none => .err (.keyError (lc "date"))
  | some dv =>
    match dictGet (lc "year") r3 with
    | none => .err (.keyError (lc "year"))
    | some yv =>
      let r4 := dictRemove (lc "year") r3
      match valStr dv, valStr yv with
      | .ok ds, .ok ys =>
        match fix_date ds ys with
        | .err e => .err e
        | .ok d => .ok (dictSet (lc "date") (.date d) r4)
      | _, _ => .err .typeError

/-- `FBOTableEntry.cleanup` (model.py): drop `link`; split `respdate`
into a composed `response_date`; then the renames and the `date`/`year`
composition of `cleanupMain`. -/
def cleanup (record0 : Dict) : Res Dict :=
  let record1 := dictRemove (lc "link") record0
  let withResp : Res Dict :=
    match dictGet (lc "respdate") record1 with
    | none => .ok record1
    | some v =>
      match valStr v with
      | .err e => .err e
      | .ok s =>
        match fix_date (s.take 4) ((s.drop 4).take 2) with
        | .err e => .err e
        | .ok d =>
          .ok (dictSet (lc "response_date") (.date d) (dictRemove (lc "respdate") record1))
  match withResp with
  | .err e => .err e
  | .ok r2 => cleanupMain r2

example : fix_date (lc "0115") (lc "23") = .ok ⟨2023, 1, 15⟩ := by decide
example : fix_date (lc "0115") (lc "99") = .ok ⟨1999, 1, 15⟩ := by decide
example : parse_line (lc "<AWARD>") = some (lc "AWARD", []) := by decide
example : parse_line (lc "<DATE attr=3>0115") = some (lc "DATE", lc "0115") := by decide
example : parse_line (lc "no tag here") = none := by decide

/-- The mutable state of the `parse_nightly` loop (model.py): the
record dict under construction and the two-deep tag history `prev` /
`prevprev` (both start as Python `None`, embedded as `none`). -/
structure PNState : Type where
  prev : Option (List Char)
  prevprev : Option (List Char)
  record : Dict
deriving DecidableEq, Repr

/-- `record[prev.lower()] += line` in `parse_nightly`: a continuation
line is appended to the previous field's value. With `prev = None`
Python raises `AttributeError` (from `None.lower()`); with the key
absent it raises `KeyError`; appending to a non-string raises
`TypeError`. `sep` is what is put between (empty for plain
continuation, a newline for ignored tags). -/
def contAppend (st : PNState) (sep line : List Char) : Res PNState :=
  match st.prev with
  | none => .err .attrError
  | some p =>
    let k := lowerL p
    match dictGet k st.record with
    | none => .err (.keyError k)
    | some v =>
      match valStr v with
      | .err e => .err e
      | .ok s => .ok { st with record := dictSet k (.str (s ++ sep ++ line)) st.record }

/-- One iteration of the `parse_nightly` line loop (model.py), for a
record class whose `record_type` is `recordType` (the class name
uppercased). Branch order follows the source: carriage-return
continuation, lexing (failure means continuation), record-marker skip,
`DESC` disambiguation on `tag_before_previous`, ignore-list append of
the raw line, and finally an ordinary field store with history
advance. -/
def pnStep (recordType : List Char) (st : PNState) (line : List Char) : Res PNState :=
  if line.getLast? = some '\r' then contAppend st [] line
  else
    match parse_line line with
    | none => contAppend st [] line
    | some (tag, val) =>
      if tag = recordType ∨ tag = '/' :: recordType then .ok st
      else if tag = lc "DESC" then
        if st.prevprev = some (lc "LINK") then
          .ok { st with record := dictSet (lc "url_desc") (.str val) st.record,
                        prev := some (lc "url_desc") }
        else if st.prevprev = some (lc "EMAIL") then
          .ok { st with record := dictSet (lc "email_desc") (.str val) st.record,
                        prev := some (lc "email_desc") }
        else
          .ok { record := dictSet (lc "desc") (.str val) st.record,
                prevprev := st.prev, prev := some (lc "DESC") }
      else if is_ignored_tag tag then contAppend st (lc "\n") line
      else
        .ok { record := dictSet (lowerL tag) (.str val) st.record,
              prevprev := st.prev, prev := some tag }

/-- Run the `parse_nightly` line loop over a record's lines. -/
def runPN (recordType : List Char) (st : PNState) : List (List Char) → Res PNState
  | [] => .ok st
  | l :: ls =>
    match pnStep recordType st l with
    | .ok st2 => runPN recordType st2 ls
    | .err e => .err e

/-- The initial `parse_nightly` state: `prev = prevprev = None`, empty dict. -/
def pnInit : PNState := ⟨none, none, []⟩

/-- `FBOTableEntry.parse_nightly` (model.py) on a record given as a
list of lines (as the ETL passes it): run the line loop, then
`cleanup`. -/
def parse_nightly (recordType : List Char) (lines : List (List Char)) : Res Dict :=
  match runPN recordType pnInit lines with
  | .err e => .err e
  | .ok st => cleanup st.record

example :
    parse_nightly (lc "AWARD")
      [lc "<AWARD>", lc "<DATE>0115", lc "<YEAR>23", lc "</AWARD>"] =
    .ok [(lc "date", .date ⟨2023, 1, 15⟩)] := by decide

/-- UTF-8 encoding of one character, as Python `str.encode()` does. -/
def utf8Char (c : Char) : List Nat :=
  let n := c.toNat
  if n < 128 then [n]
  else if n < 2048 then [192 + n / 64, 128 + n % 64]
  else if n < 65536 then [224 + n / 4096, 128 + (n / 64) % 64, 128 + n % 64]
  else [240 + n / 262144, 128 + (n / 4096) % 64, 128 + (n / 64) % 64, 128 + n % 64]

/-- UTF-8 encoding of a string, as Python `str.encode()` does. -/
def utf8Encode : List Char → List Nat
  | [] => []
  | c :: cs => utf8Char c ++ utf8Encode cs

/-- The word size modulus of SHA-256 arithmetic. -/
def m32 : Nat := 4294967296

/-- Right rotation of a 32-bit word. -/
def rotr (n w : Nat) : Nat := ((w >>> n) ||| (w <<< (32 - n))) % m32

/-- Bitwise complement of a 32-bit word. -/
def not32 (w : Nat) : Nat := w ^^^ (m32 - 1)

/-- Big-endian byte encoding of `n` in `k` bytes. -/
def beBytes : Nat → Nat → List Nat
  | 0, _ => []
  | k + 1, n => beBytes k (n / 256) ++ [n % 256]

/-- SHA-256 message padding: append `0x80`, zeros, and the 64-bit
big-endian bit length, reaching a multiple of 64 bytes. -/
def sha256Pad (msg : List Nat) : List Nat :=
  let len := msg.length
  let padZeros := (119 - len % 64) % 64
  msg ++ 128 :: List.replicate padZeros 0 ++ beBytes 8 (len * 8)

/-- Split a byte list into 64-byte chunks (the argument is always a
multiple of 64 bytes after padding); the first argument is fuel. -/
def chunksAux : Nat → List Nat → List (List Nat)
  | 0, _ => []
  | _, [] => []
  | fuel + 1, l => l.take 64 :: chunksAux fuel (l.drop 64)

/-- Split a padded message into its 64-byte blocks. -/
def chunks64 (l : List Nat) : List (List Nat) := chunksAux l.length l

/-- Combine bytes into big-endian 32-bit words. -/
def beWords : List Nat → List Nat
  | b0 :: b1 :: b2 :: b3 :: rest =>
    (((b0 * 256 + b1) * 256 + b2) * 256 + b3) :: beWords rest
  | _ => []

/-- The SHA-256 round constants. -/
def sha256K : List Nat :=
  [1116352408, 1899447441, 3049323471, 3921009573, 961987163, 1508970993,
   2453635748, 2870763221, 3624381080, 310598401, 607225278, 1426881987,
   1925078388, 2162078206, 2614888103, 3248222580, 3835390401, 4022224774,
   264347078, 604807628, 770255983, 1249150122, 1555081692, 1996064986,
   2554220882, 2821834349, 2952996808, 3210313671, 3336571891, 3584528711,
   113926993, 338241895, 666307205, 773529912, 1294757372, 1396182291,
   1695183700, 1986661051, 2177026350, 2456956037, 2730485921, 2820302411,
   3259730800, 3345764771, 3516065817, 3600352804, 4094571909, 275423344,
   430227734, 506948616, 659060556, 883997877, 958139571, 1322822218,
   1537002063, 1747873779, 1955562222, 2024104815, 2227730452, 2361852424,
   2428436474, 2756734187, 3204031479, 3329325298]

/-- The SHA-256 initial hash value. -/
def sha256H0 : List Nat :=
  [1779033703, 3144134277, 1013904242, 2773480762,
   1359893119, 2600822924, 528734635, 1541459225]

/-- Message-schedule small sigma 0. -/
def ssig0 (w : Nat) : Nat := rotr 7 w ^^^ rotr 18 w ^^^ (w >>> 3)

/-- Message-schedule small sigma 1. -/
def ssig1 (w : Nat) : Nat := rotr 17 w ^^^ rotr 19 w ^^^ (w >>> 10)

/-- Extend the 16 block words to the 64 schedule words; `acc` holds the
schedule so far in reverse (`acc.getD k` is word `t - 1 - k`). -/
def scheduleAux : Nat → List Nat → List Nat
  | 0, acc => acc
  | n + 1, acc =>
    let w := (ssig1 (acc.getD 1 0) + acc.getD 6 0 + ssig0 (acc.getD 14 0)
              + acc.getD 15 0) % m32
    scheduleAux n (w :: acc)

/-- The full 64-word message schedule of a block. -/
def schedule (ws16 : List Nat) : List Nat :=
  (scheduleAux 48 ws16.reverse).reverse

/-- The eight SHA-256 working variables. -/
structure Sha8 : Type where
  a : Nat
  b : Nat
  c : Nat
  d : Nat
  e : Nat
  f : Nat
  g : Nat
  h : Nat
deriving DecidableEq, Repr

/-- The SHA-256 compression rounds over paired round constants and
schedule words. -/
def compressLoop : List (Nat × Nat) → Sha8 → Sha8
  | [], st => st
  | (k, w) :: rest, st =>
    let s1 := rotr 6 st.e ^^^ rotr 11 st.e ^^^ rotr 25 st.e
    let ch := (st.e &&& st.f) ^^^ (not32 st.e &&& st.g)
    let t1 := (st.h + s1 + ch + k + w) % m32
    let s0 := rotr 2 st.a ^^^ rotr 13 st.a ^^^ rotr 22 st.a
    let mj := (st.a &&& st.b) ^^^ (st.a &&& st.c) ^^^ (st.b &&& st.c)
    let t2 := (s0 + mj) % m32
    compressLoop rest
      ⟨(t1 + t2) % m32, st.a, st.b, st.c, (st.d + t1) % m32, st.e, st.f, st.g⟩

/-- Process one 64-byte block: compress and add into the chaining value. -/
def sha256Block (st : Sha8) (block : List Nat) : Sha8 :=
  let ws := schedule (beWords block)
  let r := compressLoop (sha256K.zip ws) st
  ⟨(st.a + r.a) % m32, (st.b + r.b) % m32, (st.c + r.c) % m32,
   (st.d + r.d) % m32, (st.e + r.e) % m32, (st.f + r.f) % m32,
   (st.g + r.g) % m32, (st.h + r.h) % m32⟩

/-- SHA-256 of a byte string, as 32 digest bytes. -/
def sha256Bytes (msg : List Nat) : List Nat :=
  let init : Sha8 := ⟨1779033703, 3144134277, 1013904242, 2773480762,
                      1359893119, 2600822924, 528734635, 1541459225⟩
  let fin := (chunks64 (sha256Pad msg)).foldl sha256Block init
  beBytes 4 fin.a ++ beBytes 4 fin.b ++ beBytes 4 fin.c ++ beBytes 4 fin.d ++
  beBytes 4 fin.e ++ beBytes 4 fin.f ++ beBytes 4 fin.g ++ beBytes 4 fin.h

/-- One lowercase hex digit. -/
def hexDigit (n : Nat) : Char :=
  if n < 10 then Char.ofNat (48 + n) else Char.ofNat (87 + n)

/-- Lowercase hex encoding of a byte list, as `hashlib`'s `hexdigest()`. -/
def bytesToHex : List Nat → List Char
  | [] => []
  | b :: bs => hexDigit (b / 16) :: hexDigit (b % 16) :: bytesToHex bs

/-- `hashlib.sha256(s.encode()).hexdigest()` for a Python string `s`. -/
def sha256Hex (s : List Char) : List Char :=
  bytesToHex (sha256Bytes (utf8Encode s))

example : sha256Hex [] =
    lc "e3b0c44298fc1c149afbf4c8996fb92427ae41e4649b934ca495991b7852b855" := by
  decide

example : sha256Hex (lc "abc") =
    lc "ba7816bf8f01cfea414140de5dae2223b00361a396177a9cb410ff61f20015ad" := by
  decide

/-- Decimal digits of a natural number, via its standard string form. -/
def natStr (n : Nat) : List Char := (toString n).toList

/-- Zero-pad a digit string on the left to width `w`. -/
def padZero (w : Nat) (s : List Char) : List Char :=
  List.replicate (w - s.length) '0' ++ s

/-- `str(d)` for a `datetime.date`: the ISO form `YYYY-MM-DD`. -/
def isoDate (d : PyDate) : List Char :=
  padZero 4 (natStr d.year) ++ lc "-" ++ padZero 2 (natStr d.month)
    ++ lc "-" ++ padZero 2 (natStr d.day)

/-- `str(v)` for a record value. -/
def pyStr : Val → List Char
  | .str s => s
  | .date d => isoDate d

/-- `sep.join(parts)`. -/
def joinSep (sep : List Char) : List (List Char) → List Char
  | [] => []
  | [x] => x
  | x :: y :: xs => x ++ sep ++ joinSep sep (y :: xs)

/-- `DBConn.make_query_dict` (sql.py, identical copy in model.py):
set `d['sha256']` to the sha256 hex digest of the `|`-join of
`str(v)` for the values in insertion order (evaluated before the
assignment, so the hash ranges over the parsed fields only), then
build the `INSERT OR IGNORE` statement whose column list and named
placeholders come from the keys (now including `sha256`). Returns the
query string and the augmented dict. -/
def make_query_dict (table : List Char) (d : Dict) : List Char × Dict :=
  let hash := sha256Hex (joinSep (lc "|") ((dictValues d).map pyStr))
  let d2 := dictSet (lc "sha256") (.str hash) d
  let columns := joinSep (lc ", ") (dictKeys d2)
  let placeholders := ':' :: joinSep (lc ", :") (dictKeys d2)
  (lc "INSERT OR IGNORE INTO " ++ table ++ lc " (" ++ columns
     ++ lc ") VALUES (" ++ placeholders ++ lc ");\n", d2)

/-- The state of the `get_nightly_records` loop (etl.py): the emitted
records, the lines of the record being accumulated, and
`curr_record_type`. Python holds `None` or a string there and tests it
for truthiness, so `None` and the empty string behave identically;
both are embedded as `[]`. -/
structure SplitState : Type where
  records : List (List (List Char))
  record : List (List Char)
  curr : List Char
deriving DecidableEq, Repr

/-- `"</%s>" % curr_record_type`: the closing tag line searched for. -/
def closeTagOf (t : List Char) : List Char := lc "</" ++ t ++ lc ">"

/-- One iteration of the `get_nightly_records` loop (etl.py): outside a
record, skip blank lines and lex the first non-blank line as the
record-type marker (a lexing failure is an uncaught `ParseError`);
inside a record, append the line and close the record when the line
equals the closing tag exactly. -/
def splitStep (st : SplitState) (line : List Char) : Res SplitState :=
  if st.curr = [] then
    if isBlank line then .ok st
    else
      match parse_line line with
      | none => .err .parseErr
      | some (t, _) => .ok { st with record := st.record ++ [line], curr := t }
  else
    let rec2 := st.record ++ [line]
    if line = closeTagOf st.curr then
      .ok { records := st.records ++ [rec2], record := [], curr := [] }
    else .ok { st with record := rec2 }

/-- Run the splitter loop over the file's lines. -/
def runSplit (st : SplitState) : List (List Char) → Res SplitState
  | [] => .ok st
  | l :: ls =>
    match splitStep st l with
    | .ok st2 => runSplit st2 ls
    | .err e => .err e

/-- The initial splitter state. -/
def splitInitState : SplitState := ⟨[], [], []⟩

/-- `Nightlies.get_nightly_records` (etl.py) on the decoded file
content already split at newlines: the list of accumulated records;
a record still open at end of input is discarded with the final
state. -/
def get_nightly_records (lines : List (List Char)) : Res (List (List (List Char))) :=
  match runSplit splitInitState lines with
  | .ok st => .ok st.records
  | .err e => .err e

/-- The record-type classes found by `get_FBOTableEntry_classes`
(model.py): every module class deriving from `FBOTableEntry`. -/
def classNames : List (List Char) :=
  [lc "Amdcss", lc "Archive", lc "Award", lc "Combine", lc "Fairopp",
   lc "Fstd", lc "Ja", lc "Mod", lc "Presol", lc "SNote", lc "Srcsgt",
   lc "SSale", lc "Unarchive"]

/-- The keys of `get_FBOTableEntry_classes_as_dict()`: the class names
lowercased. -/
def classNamesLower : List (List Char) := classNames.map lowerL

/-- The message of `warn("Unhandled record type: %s" % tag)` (etl.py). -/
def warnMsg (tag : List Char) : List Char := lc "Unhandled record type: " ++ tag

/-- `Nightlies.add_query` (etl.py): append the record to the list kept
under its query string, creating the entry on first sight (Python dict
insertion order). Each stored element also carries the destination
table, which the real system recovers from the query text it executes;
`make_query_dict` embeds exactly that table name in the query. -/
def addQuery (q : List Char) (e : List Char × Dict) :
    List (List Char × List (List Char × Dict)) →
    List (List Char × List (List Char × Dict))
  | [] => [(q, [e])]
  | (q2, es) :: rest =>
    if q2 = q then (q2, es ++ [e]) :: rest else (q2, es) :: addQuery q e rest

/-- The state of the per-record loop of `etl_from_filename` (etl.py):
the `unhandled` tag list, the warnings issued, and the `queries`
dict. -/
structure PState : Type where
  unhandled : List (List Char)
  warns : List (List Char)
  groups : List (List Char × List (List Char × Dict))
deriving DecidableEq, Repr

/-- One iteration of the record loop of `etl_from_filename` (etl.py):
take the record type from the first line (a `ParseError` there is
caught and turned into `sys.exit(-1)`); warn once per file for a tag
with no model class and skip its record; otherwise parse the record
with the matching class — whose `record_type` is its class name
uppercased, here `upperL (lowerL tag)` since the class is looked up by
`tag.lower()` — and add the insert query. -/
def processRecord (st : PState) (record : List (List Char)) : Res PState :=
  match record with
  | [] => .err .indexError
  | first :: _ =>
    match parse_line first with
    | none => .err .sysExit
    | some (tag, _) =>
      if ¬ lowerL tag ∈ classNamesLower then
        if tag ∈ st.unhandled then .ok st
        else .ok { st with unhandled := st.unhandled ++ [tag],
                           warns := st.warns ++ [warnMsg tag] }
      else
        match parse_nightly (upperL (lowerL tag)) record with
        | .err e => .err e
        | .ok parsed =>
          let qd := make_query_dict (lowerL tag) parsed
          .ok { st with groups := addQuery qd.1 (lowerL tag, qd.2) st.groups }

/-- Run the record loop over all records of a file. -/
def processRecords (st : PState) : List (List (List Char)) → Res PState
  | [] => .ok st
  | r :: rs =>
    match processRecord st r with
    | .ok st2 => processRecords st2 rs
    | .err e => .err e

/-- The initial record-loop state of one `etl_from_filename` call. -/
def pInit : PState := ⟨[], [], []⟩

/-- The parse half of `etl_from_filename` (etl.py): split the file into
records and run the record loop. No database access happens here. -/
def parsePhase (lines : List (List Char)) : Res PState :=
  match get_nightly_records lines with
  | .err e => .err e
  | .ok recs => processRecords pInit recs

/-- The database: one row list per table name, each row a column dict.
The generated schema (`FBOTableEntry.sql_table`, model.py) puts a
`UNIQUE (sha256)` constraint on every record table. -/
def DB : Type := List (List Char × List Dict)

instance : DecidableEq DB := by
  unfold DB
  infer_instance

instance : Repr DB := by
  unfold DB
  infer_instance

/-- The rows of table `t` (absent table: no rows). -/
def dbRows (t : List Char) : DB → List Dict
  | [] => []
  | (t2, rows) :: rest => if t2 = t then rows else dbRows t rest

/-- Replace the rows of table `t`. -/
def dbSetRows (t : List Char) (rows : List Dict) : DB → DB
  | [] => [(t, rows)]
  | (t2, r2) :: rest =>
    if t2 = t then (t2, rows) :: rest else (t2, r2) :: dbSetRows t rows rest

/-- The `sha256` column of a row (`none` embeds SQL `NULL`). -/
def rowHash (r : Dict) : Option Val := dictGet (lc "sha256") r

/-- One `INSERT OR IGNORE` into a table with `UNIQUE (sha256)`: a row
whose `sha256` equals that of an existing row is dropped; a `NULL`
hash never conflicts (SQL `UNIQUE` ignores `NULL`s). -/
def dbInsert (db : DB) (t : List Char) (row : Dict) : DB :=
  match rowHash row with
  | none => dbSetRows t (dbRows t db ++ [row]) db
  | some h =>
    if (dbRows t db).any (fun r => decide (rowHash r = some h)) then db
    else dbSetRows t (dbRows t db ++ [row]) db

/-- Execute a list of (table, row) inserts in order. -/
def runPairs : List (List Char × Dict) → DB → DB
  | [], db => db
  | (t, r) :: ps, db => runPairs ps (dbInsert db t r)

/-- Flatten the query groups into the executed insert order: the write
loop of `etl_from_filename` runs the groups in dict insertion order
and `executemany` runs each group's rows in list order. -/
def pairsOf : List (List Char × List (List Char × Dict)) → List (List Char × Dict)
  | [] => []
  | (_, es) :: rest => es ++ pairsOf rest

/-- The write half of `etl_from_filename` (etl.py): execute every
grouped insert against the database. -/
def runGroups (groups : List (List Char × List (List Char × Dict))) (db : DB) : DB :=
  runPairs (pairsOf groups) db

/-- `Nightlies.etl_from_filename` (etl.py) on the file's decoded lines:
parse all records (any uncaught exception aborts the file before any
write), then run the batched inserts. Returns the new database and the
warnings logged during the run. -/
def etl_from_filename (lines : List (List Char)) (db : DB) : Res (DB × List (List Char)) :=
  match parsePhase lines with
  | .err e => .err e
  | .ok st => .ok (runGroups st.groups db, st.warns)

/-- `line.startswith(pre)` on embedded strings. -/
def startsWithL : List Char → List Char → Bool
  | [], _ => true
  | _ :: _, [] => false
  | p :: ps, c :: cs => p = c ∧ startsWithL ps cs

/-- `line.endswith(suf)` on embedded strings. -/
def endsWithL (suf s : List Char) : Bool := startsWithL suf.reverse s.reverse

/-- The filename filter of `etl_from_dir` (etl.py):
`fname.startswith("FBO") and not fname.endswith(".sql")`. -/
def fboFile (fname : List Char) : Bool :=
  startsWithL (lc "FBO") fname ∧ ¬ endsWithL (lc ".sql") fname

/-- `DBConn.get_parsed_datetime` (sql.py) used as a truth value: the
activity log holds a row whose message is `"Parsed " + fname` (the
returned row timestamp, always truthy in Python, is irrelevant
here). -/
def parsedInLog (log : List (List Char)) (fname : List Char) : Bool :=
  decide ((lc "Parsed " ++ fname) ∈ log)

/-- The observable state of one ETL run: the database, the activity-log
messages in insertion order (append-only), and the warnings issued. -/
structure ETLState : Type where
  db : DB
  log : List (List Char)
  warns : List (List Char)
deriving DecidableEq, Repr

/-- One directory entry in `etl_from_dir` (etl.py): skip names that
fail the FBO filter; with `reparse` false, skip files already marked
`Parsed` in the activity log without reading them; otherwise run
`etl_from_filename` on the file's lines and append a `Parsed` log
entry. -/
def stepFile (reparse : Bool) (st : ETLState) (file : List Char × List (List Char)) :
    Res ETLState :=
  if ¬ fboFile file.1 then .ok st
  else if reparse = false ∧ parsedInLog st.log file.1 then .ok st
  else
    match etl_from_filename file.2 st.db with
    | .err e => .err e
    | .ok (db2, w) =>
      .ok ⟨db2, st.log ++ [lc "Parsed " ++ file.1], st.warns ++ w⟩

/-- `Nightlies.etl_from_dir` (etl.py) over the directory's (sorted)
file names paired with their decoded lines. -/
def etl_from_dir (reparse : Bool) : List (List Char × List (List Char)) → ETLState → Res ETLState
  | [], st => .ok st
  | f :: fs, st =>
    match stepFile reparse st f with
    | .ok st2 => etl_from_dir reparse fs st2
    | .err e => .err e

/-! ### Helper lemmas about the dict embedding and the lexer -/

theorem dictGet_set_self (k : List Char) (v : Val) (d : Dict) :
    dictGet k (dictSet k v d) = some v := by
  induction d with
  | nil => simp [dictGet, dictSet]
  | cons p rest ih =>
    obtain ⟨k2, v2⟩ := p
    by_cases h : k2 = k
    · simp [dictGet, dictSet, h]
    · simp [dictGet, dictSet, h, ih]

theorem dictGet_set_ne (k k2 : List Char) (v : Val) (d : Dict) (h : k2 ≠ k) :
    dictGet k (dictSet k2 v d) = dictGet k d := by
  induction d with
  | nil => simp [dictGet, dictSet, h]
  | cons p rest ih =>
    obtain ⟨k3, v3⟩ := p
    by_cases h3 : k3 = k2
    · subst h3
      simp [dictGet, dictSet, h]
    · by_cases h4 : k3 = k
      · simp [dictGet, dictSet, h3, h4, Ne.symm h]
      · simp [dictGet, dictSet, h3, h4, ih]

theorem dictGet_remove_ne (k k2 : List Char) (d : Dict) (h : k2 ≠ k) :
    dictGet k (dictRemove k2 d) = dictGet k d := by
  induction d with
  | nil => simp [dictRemove]
  | cons p rest ih =>
    obtain ⟨k3, v3⟩ := p
    by_cases h3 : k3 = k2
    · subst h3
      simp [dictGet, dictRemove, h, ih, Ne.symm h]
    · by_cases h4 : k3 = k
      · simp [dictGet, dictRemove, h3, h4, Ne.symm h]
      · simp [dictGet, dictRemove, h3, h4, ih]

theorem dictGet_rename_ne (k fromName toName : List Char) (d : Dict)
    (h1 : fromName ≠ k) (h2 : toName ≠ k) :
    dictGet k (rename_field d fromName toName) = dictGet k d := by
  unfold rename_field
  cases hf : dictGet fromName d with
  | none => rfl
  | some v => rw [dictGet_set_ne _ _ _ _ h2, dictGet_remove_ne _ _ _ h1]

theorem splitOnFirst_not_mem (c : Char) (l : List Char) (h : c ∉ l) :
    splitOnFirst c l = none := by
  induction l with
  | nil => rfl
  | cons x xs ih =>
    simp only [List.mem_cons, not_or] at h
    simp [splitOnFirst, Ne.symm h.1, ih h.2]

theorem splitOnFirst_append (c : Char) (l1 l2 : List Char) (h : c ∉ l1) :
    splitOnFirst c (l1 ++ c :: l2) = some (l1, l2) := by
  induction l1 with
  | nil => simp [splitOnFirst]
  | cons x xs ih =>
    simp only [List.mem_cons, not_or] at h
    simp [splitOnFirst, Ne.symm h.1, ih h.2]

/-- Lexing a tag line of the shape `<TAG>value` where the tag has no
`>` and no space: the lexer returns exactly the tag and the value. -/
theorem parse_line_tag (T v : List Char) (hgt : '>' ∉ T) (hsp : ' ' ∉ T) :
    parse_line (('<' :: T) ++ '>' :: v) = some (T, v) := by
  have hgt2 : '>' ∉ '<' :: T := by
    simp only [List.mem_cons, not_or]
    exact ⟨by decide, hgt⟩
  have hsp2 : ' ' ∉ '<' :: T := by
    simp only [List.mem_cons, not_or]
    exact ⟨by decide, hsp⟩
  have key := splitOnFirst_append '>' ('<' :: T) v hgt2
  have key2 := splitOnFirst_not_mem ' ' ('<' :: T) hsp2
  simp only [List.cons_append] at key
  show parse_line ('<' :: (T ++ '>' :: v)) = some (T, v)
  simp only [parse_line]
  rw [if_pos trivial, key]
  simp [key2]

/-! ### C4 — date composition -/

/-- C4 counterexample: the claim says `fix_date` on `date="0115"`,
`year="99"` yields 1899-01-15; the code adds 1900 to two-digit years
from 90 to 99, so it yields 1999-01-15. -/
theorem fix_date_year99_counterexample :
    fix_date (lc "0115") (lc "99") ≠ .ok ⟨1899, 1, 15⟩ ∧
    fix_date (lc "0115") (lc "99") = .ok ⟨1999, 1, 15⟩ := by
  decide

/-- C4 (amended): `fix_date` composes `date="0115"` with `year="23"`
to 2023-01-15, with `year="99"` to 1999-01-15 (not 1899-01-15), and
with `year="05"` to 2005-01-15; `cleanup` applies exactly this
composition to the `date`/`year` fields. -/
theorem fix_date_composition :
    fix_date (lc "0115") (lc "23") = .ok ⟨2023, 1, 15⟩ ∧
    fix_date (lc "0115") (lc "99") = .ok ⟨1999, 1, 15⟩ ∧
    fix_date (lc "0115") (lc "05") = .ok ⟨2005, 1, 15⟩ ∧
    cleanup [(lc "date", .str (lc "0115")), (lc "year", .str (lc "23"))] =
      .ok [(lc "date", .date ⟨2023, 1, 15⟩)] := by
  decide

/-! ### C3 — DESC disambiguation -/

/-- C3 counterexample: in a record where `<LINK>x` is immediately
followed by `<DESC>hello`, the assembler stores `hello` under plain
`desc` (there is no `url_desc` key in the result): the `DESC` branch
tests the tag before the previous one (`prevprev`), which after an
immediately preceding `<LINK>` line is the tag before the `LINK`. -/
theorem desc_immediately_after_link_counterexample :
    parse_nightly (lc "AWARD")
      [lc "<AWARD>", lc "<DATE>0115", lc "<YEAR>23", lc "<LINK>x",
       lc "<DESC>hello", lc "</AWARD>"] =
      .ok [(lc "date", .date ⟨2023, 1, 15⟩), (lc "desc", .str (lc "hello"))] ∧
    dictGet (lc "url_desc")
      [(lc "date", .date ⟨2023, 1, 15⟩), (lc "desc", .str (lc "hello"))] = none := by
  decide

/-- C3 (amended): the `DESC` disambiguation keys on the tag before the
previous one. For any assembler state and any `<DESC>hello` line (not
ending in a carriage return, for a record type other than `DESC`):
if the tag before the previous tag was `LINK` — as when `<LINK>x` is
followed by one intervening tag line and then `<DESC>hello` — the value
is stored under `url_desc`; if it was `EMAIL`, under `email_desc`; and
otherwise under plain `desc`. -/
theorem desc_disambiguation_two_back
    (recordType : List Char) (st : PNState) (v : List Char)
    (hrt1 : lc "DESC" ≠ recordType) (hrt2 : lc "DESC" ≠ '/' :: recordType)
    (hcr : v.getLast? ≠ some '\r') :
    (st.prevprev = some (lc "LINK") →
      pnStep recordType st (lc "<DESC>" ++ v) =
        .ok { st with record := dictSet (lc "url_desc") (.str v) st.record,
                      prev := some (lc "url_desc") }) ∧
    (st.prevprev = some (lc "EMAIL") →
      pnStep recordType st (lc "<DESC>" ++ v) =
        .ok { st with record := dictSet (lc "email_desc") (.str v) st.record,
                      prev := some (lc "email_desc") }) ∧
    (st.prevprev ≠ some (lc "LINK") → st.prevprev ≠ some (lc "EMAIL") →
      pnStep recordType st (lc "<DESC>" ++ v) =
        .ok ⟨some (lc "DESC"), st.prev, dictSet (lc "desc") (.str v) st.record⟩) := by
  have hparse : parse_line (lc "<DESC>" ++ v) = some (lc "DESC", v) :=
    parse_line_tag (lc "DESC") v (by decide) (by decide)
  have hlast : (lc "<DESC>" ++ v).getLast? ≠ some '\r' := by
    rw [List.getLast?_append]
    cases hv : v.getLast? with
    | none => decide
    | some x =>
      simp only [Option.or_some]
      intro hcon
      exact hcr (hv.trans hcon)
  have hmarker : ¬(lc "DESC" = recordType ∨ lc "DESC" = '/' :: recordType) := by
    rintro (h | h)
    · exact hrt1 h
    · exact hrt2 h
  unfold pnStep
  rw [if_neg hlast, hparse]
  dsimp only
  rw [if_neg hmarker, if_pos rfl]
  refine ⟨fun h => ?_, fun h => ?_, fun h1 h2 => ?_⟩
  · rw [if_pos h]
  · have hne : ¬ st.prevprev = some (lc "LINK") := by
      rw [h]
      intro hl
      exact absurd (Option.some.inj hl) (by decide)
    rw [if_neg hne, if_pos h]
  · rw [if_neg h1, if_neg h2]

/-- C3 witness: concrete instance of the amended disambiguation, one
for each of the three branches. -/
theorem desc_disambiguation_two_back_witness :
    pnStep (lc "AWARD") ⟨some (lc "URL"), some (lc "LINK"), []⟩ (lc "<DESC>hello") =
      .ok ⟨some (lc "url_desc"), some (lc "LINK"),
           [(lc "url_desc", .str (lc "hello"))]⟩ ∧
    pnStep (lc "AWARD") ⟨some (lc "ADDRESS"), some (lc "EMAIL"), []⟩ (lc "<DESC>hello") =
      .ok ⟨some (lc "email_desc"), some (lc "EMAIL"),
           [(lc "email_desc", .str (lc "hello"))]⟩ ∧
    pnStep (lc "AWARD") ⟨some (lc "YEAR"), some (lc "DATE"), []⟩ (lc "<DESC>hello") =
      .ok ⟨some (lc "DESC"), some (lc "YEAR"), [(lc "desc", .str (lc "hello"))]⟩ := by
  refine ⟨?_, ?_, ?_⟩
  · exact (desc_disambiguation_two_back (lc "AWARD") ⟨some (lc "URL"), some (lc "LINK"), []⟩
      (lc "hello") (by decide) (by decide) (by decide)).1 rfl
  · exact (desc_disambiguation_two_back (lc "AWARD") ⟨some (lc "ADDRESS"), some (lc "EMAIL"), []⟩
      (lc "hello") (by decide) (by decide) (by decide)).2.1 rfl
  · exact (desc_disambiguation_two_back (lc "AWARD") ⟨some (lc "YEAR"), some (lc "DATE"), []⟩
      (lc "hello") (by decide) (by decide) (by decide)).2.2 (by decide) (by decide)

/-! ### C5 — content-hash order dependence -/

/-- Two field maps with the same key/value pairs inserted in different orders. -/
def c5dictA : Dict :=
  [(lc "date", .str (lc "0115")), (lc "subject", .str (lc "widgets"))]

/-- The same pairs as `c5dictA`, inserted in the opposite order. -/
def c5dictB : Dict :=
  [(lc "subject", .str (lc "widgets")), (lc "date", .str (lc "0115"))]

/-- C5 counterexample: two assembled field maps holding the same
field/value pairs (a permutation of one another) receive different
sha256 content hashes from `make_query_dict`, because the hash is taken
over the values in map-insertion order. -/
theorem content_hash_order_counterexample :
    List.Perm c5dictA c5dictB ∧
    dictGet (lc "sha256") (make_query_dict (lc "award") c5dictA).2 ≠
      dictGet (lc "sha256") (make_query_dict (lc "award") c5dictB).2 := by
  constructor
  · unfold c5dictA c5dictB
    exact List.Perm.swap _ _ _
  · decide

/-- C5 (amended): the content hash is a pure function of the sequence
of field values in map-insertion order: any two field maps with the
same insertion-ordered value sequence get the same sha256 hash from
`make_query_dict`, whatever their keys or destination tables; maps
holding the same pairs in different orders may hash differently. -/
theorem content_hash_of_value_sequence
    (t1 t2 : List Char) (d1 d2 : Dict) (h : dictValues d1 = dictValues d2) :
    dictGet (lc "sha256") (make_query_dict t1 d1).2 =
      dictGet (lc "sha256") (make_query_dict t2 d2).2 := by
  unfold make_query_dict
  simp only [dictGet_set_self, h]

/-- C5 witness: two maps with different keys but the same value
sequence hash identically. -/
theorem content_hash_of_value_sequence_witness :
    dictGet (lc "sha256")
      (make_query_dict (lc "award") [(lc "subject", .str (lc "v"))]).2 =
    dictGet (lc "sha256")
      (make_query_dict (lc "archive") [(lc "contact", .str (lc "v"))]).2 :=
  content_hash_of_value_sequence (lc "award") (lc "archive")
    [(lc "subject", .str (lc "v"))] [(lc "contact", .str (lc "v"))] (by decide)

/-! ### C6 — behaviour on records missing `date` / `year` -/

theorem dictGet_applyRenames_date (d : Dict) :
    dictGet (lc "date") (applyRenames d) = dictGet (lc "date") d := by
  unfold applyRenames
  rw [dictGet_rename_ne _ _ _ _ (by decide) (by decide),
      dictGet_rename_ne _ _ _ _ (by decide) (by decide),
      dictGet_rename_ne _ _ _ _ (by decide) (by decide),
      dictGet_rename_ne _ _ _ _ (by decide) (by decide),
      dictGet_rename_ne _ _ _ _ (by decide) (by decide),
      dictGet_rename_ne _ _ _ _ (by decide) (by decide),
      dictGet_rename_ne _ _ _ _ (by decide) (by decide),
      dictGet_rename_ne _ _ _ _ (by decide) (by decide),
      dictGet_rename_ne _ _ _ _ (by decide) (by decide),
      dictGet_rename_ne _ _ _ _ (by decide) (by decide),
      dictGet_rename_ne _ _ _ _ (by decide) (by decide),
      dictGet_rename_ne _ _ _ _ (by decide) (by decide)]

theorem dictGet_applyRenames_year (d : Dict) :
    dictGet (lc "year") (applyRenames d) = dictGet (lc "year") d := by
  unfold applyRenames
  rw [dictGet_rename_ne _ _ _ _ (by decide) (by decide),
      dictGet_rename_ne _ _ _ _ (by decide) (by decide),
      dictGet_rename_ne _ _ _ _ (by decide) (by decide),
      dictGet_rename_ne _ _ _ _ (by decide) (by decide),
      dictGet_rename_ne _ _ _ _ (by decide) (by decide),
      dictGet_rename_ne _ _ _ _ (by decide) (by decide),
      dictGet_rename_ne _ _ _ _ (by decide) (by decide),
      dictGet_rename_ne _ _ _ _ (by decide) (by decide),
      dictGet_rename_ne _ _ _ _ (by decide) (by decide),
      dictGet_rename_ne _ _ _ _ (by decide) (by decide),
      dictGet_rename_ne _ _ _ _ (by decide) (by decide),
      dictGet_rename_ne _ _ _ _ (by decide) (by decide)]

/-- A file whose first record lacks a `<YEAR>` tag and whose second
record is complete. -/
def c6badLines : List (List Char) :=
  [lc "<AWARD>", lc "<DATE>0115", lc "</AWARD>",
   lc "<AWARD>", lc "<DATE>0116", lc "<YEAR>23", lc "</AWARD>"]

/-- The complete second record of `c6badLines`, alone. -/
def c6goodLines : List (List Char) :=
  [lc "<AWARD>", lc "<DATE>0116", lc "<YEAR>23", lc "</AWARD>"]

set_option maxRecDepth 100000 in
/-- C6 counterexample: a record missing `year` raises an uncaught
`KeyError('year')` that aborts the whole file: ingesting `c6badLines`
fails and writes nothing, even though its second record ingests fine on
its own — the remaining records of the file are NOT parsed and loaded,
contrary to the claim. -/
theorem missing_year_aborts_file_counterexample :
    etl_from_filename c6badLines [] = .err (.keyError (lc "year")) ∧
    etl_from_filename c6goodLines [] =
      .ok ([(lc "award",
             [[(lc "date", .date ⟨2023, 1, 16⟩),
               (lc "sha256", .str (lc "5eba339729848856a9d15157fda5d52e5de93976fcfb60df9868539de886d030"))]])],
           []) := by
  constructor
  · decide
  · decide

/-- C6 (amended): a record that lacks `date` (after assembly, with no
`respdate` present) makes `cleanup` raise `KeyError('date')`; one that
has `date` but lacks `year` makes it raise `KeyError('year')`; and any
error in the parse half of `etl_from_filename` aborts the whole file
with that error before anything is written — later records of the file
are not loaded. -/
theorem missing_date_year_aborts
    (record : Dict) (lines : List (List Char)) (db : DB) (e : PyErr)
    (hresp : dictGet (lc "respdate") record = none) :
    (dictGet (lc "date") record = none →
      cleanup record = .err (.keyError (lc "date"))) ∧
    (∀ v, dictGet (lc "date") record = some v →
      dictGet (lc "year") record = none →
      cleanup record = .err (.keyError (lc "year"))) ∧
    (parsePhase lines = .err e → etl_from_filename lines db = .err e) := by
  have h1 : dictGet (lc "respdate") (dictRemove (lc "link") record) = none := by
    rw [dictGet_remove_ne _ _ _ (by decide)]
    exact hresp
  refine ⟨fun hdate => ?_, fun v hdate hyear => ?_, fun hp => ?_⟩
  · have h2 : dictGet (lc "date") (applyRenames (dictRemove (lc "link") record)) = none := by
      rw [dictGet_applyRenames_date, dictGet_remove_ne _ _ _ (by decide)]
      exact hdate
    unfold cleanup
    dsimp only
    rw [h1]
    dsimp only
    unfold cleanupMain
    dsimp only
    rw [h2]
  · have h2 : dictGet (lc "date") (applyRenames (dictRemove (lc "link") record)) = some v := by
      rw [dictGet_applyRenames_date, dictGet_remove_ne _ _ _ (by decide)]
      exact hdate
    have h3 : dictGet (lc "year") (applyRenames (dictRemove (lc "link") record)) = none := by
      rw [dictGet_applyRenames_year, dictGet_remove_ne _ _ _ (by decide)]
      exact hyear
    unfold cleanup
    dsimp only
    rw [h1]
    dsimp only
    unfold cleanupMain
    dsimp only
    rw [h2, h3]
  · unfold etl_from_filename
    rw [hp]

/-- C6 witness: concrete records hitting the `KeyError('date')` and
`KeyError('year')` branches, and a concrete failing file whose error is
surfaced unchanged by `etl_from_filename`. -/
theorem missing_date_year_aborts_witness :
    cleanup [(lc "subject", .str (lc "x"))] = .err (.keyError (lc "date")) ∧
    cleanup [(lc "date", .str (lc "0115"))] = .err (.keyError (lc "year")) ∧
    etl_from_filename c6badLines [] = .err (.keyError (lc "year")) :=
  ⟨(missing_date_year_aborts [(lc "subject", .str (lc "x"))] [] [] .sysExit (by decide)).1
     (by decide),
   (missing_date_year_aborts [(lc "date", .str (lc "0115"))] [] [] .sysExit (by decide)).2.1
     (.str (lc "0115")) (by decide) (by decide),
   (missing_date_year_aborts [] c6badLines [] (.keyError (lc "year")) (by decide)).2.2
     (by decide)⟩

/-! ### Splitter lemmas, C2 and C9 -/

theorem runSplit_append (st : SplitState) (l1 l2 : List (List Char)) :
    runSplit st (l1 ++ l2) =
      match runSplit st l1 with
      | .ok st2 => runSplit st2 l2
      | .err e => .err e := by
  induction l1 generalizing st with
  | nil => simp [runSplit]
  | cons l ls ih =>
    simp only [List.cons_append, runSplit]
    cases splitStep st l with
    | ok st2 => exact ih st2
    | err e => rfl

theorem parse_line_head (line : List Char) (p : List Char × List Char)
    (h : parse_line line = some p) : ∃ rest, line = '<' :: rest := by
  cases line with
  | nil => simp [parse_line] at h
  | cons c rest =>
    by_cases hc : c = '<'
    · exact ⟨rest, by rw [hc]⟩
    · simp [parse_line, hc] at h

/-- A line the lexer accepts starts with `<`, hence is not blank. -/
theorem parse_line_not_blank (line : List Char) (p : List Char × List Char)
    (h : parse_line line = some p) : isBlank line = false := by
  obtain ⟨rest, hrest⟩ := parse_line_head line p h
  subst hrest
  have hlt : pySpace '<' = false := by decide
  simp [isBlank, List.all_cons, hlt]

/-- Inside a record, lines that are not the closing tag only accumulate. -/
theorem runSplit_in_record (rs : List (List (List Char))) (rec : List (List Char))
    (T : List Char) (hT : T ≠ []) (body : List (List Char))
    (hbody : ∀ l ∈ body, l ≠ closeTagOf T) :
    runSplit ⟨rs, rec, T⟩ body = .ok ⟨rs, rec ++ body, T⟩ := by
  induction body generalizing rec with
  | nil => simp [runSplit]
  | cons l ls ih =>
    have hl : l ≠ closeTagOf T := hbody l (List.mem_cons_self l ls)
    have hstep : splitStep ⟨rs, rec, T⟩ l = .ok ⟨rs, rec ++ [l], T⟩ := by
      unfold splitStep
      dsimp only
      rw [if_neg hT, if_neg hl]
    simp only [runSplit, hstep]
    rw [ih (rec ++ [l]) (fun x hx => hbody x (List.mem_cons_of_mem l hx))]
    simp

/-- Outside a record, a lexable line opens a record with its tag. -/
theorem splitStep_open (rs : List (List (List Char))) (o T v : List Char)
    (hp : parse_line o = some (T, v)) :
    splitStep ⟨rs, [], []⟩ o = .ok ⟨rs, [o], T⟩ := by
  have hb : ¬ (isBlank o = true) := by
    rw [parse_line_not_blank o (T, v) hp]
    exact Bool.false_ne_true
  unfold splitStep
  dsimp only
  rw [if_pos rfl, if_neg hb, hp]
  simp

/-- One step of `runSplit`, as a definitional equation. -/
theorem runSplit_cons (st : SplitState) (l : List Char) (ls : List (List Char)) :
    runSplit st (l :: ls) =
      match splitStep st l with
      | .ok st2 => runSplit st2 ls
      | .err e => .err e := rfl

/-- The closing-tag line emits the accumulated record and resets. -/
theorem splitStep_close (rs : List (List (List Char))) (rec : List (List Char))
    (T : List Char) (hT : T ≠ []) :
    splitStep ⟨rs, rec, T⟩ (closeTagOf T) =
      .ok ⟨rs ++ [rec ++ [closeTagOf T]], [], []⟩ := by
  unfold splitStep
  dsimp only
  rw [if_neg hT, if_pos rfl]

/-- A complete record — an opening tag line, body lines none of which
is the closing tag, then the closing tag line — is emitted as one
element, leaving the splitter back outside any record. -/
theorem runSplit_one_record (rs : List (List (List Char))) (o T v : List Char)
    (b : List (List Char)) (hp : parse_line o = some (T, v)) (hT : T ≠ [])
    (hb : ∀ l ∈ b, l ≠ closeTagOf T) :
    runSplit ⟨rs, [], []⟩ (o :: b ++ [closeTagOf T]) =
      .ok ⟨rs ++ [o :: (b ++ [closeTagOf T])], [], []⟩ := by
  rw [show (o :: b ++ [closeTagOf T] : List (List Char)) = o :: (b ++ [closeTagOf T]) from rfl]
  rw [runSplit_cons, splitStep_open rs o T v hp]
  dsimp only
  rw [runSplit_append, runSplit_in_record rs [o] T hT b hb]
  dsimp only
  rw [runSplit_cons, splitStep_close rs ([o] ++ b) T hT]
  dsimp only
  rw [runSplit]
  simp

/-- C2: for input that is exactly two complete records of the same type
on adjacent lines with no separation — each opened by a lexable
`<TYPE>` line and closed by a line exactly equal to `</TYPE>` —
`get_nightly_records` returns a 2-element list of line groups, the
first ending with the first closing-tag line and the second ending with
the second closing-tag line. -/
theorem two_adjacent_records_split
    (T v1 v2 o1 o2 : List Char) (b1 b2 : List (List Char))
    (hp1 : parse_line o1 = some (T, v1)) (hp2 : parse_line o2 = some (T, v2))
    (hT : T ≠ [])
    (hb1 : ∀ l ∈ b1, l ≠ closeTagOf T) (hb2 : ∀ l ∈ b2, l ≠ closeTagOf T) :
    get_nightly_records ((o1 :: b1 ++ [closeTagOf T]) ++ (o2 :: b2 ++ [closeTagOf T])) =
      .ok [o1 :: b1 ++ [closeTagOf T], o2 :: b2 ++ [closeTagOf T]] := by
  unfold get_nightly_records
  rw [runSplit_append]
  have h1 := runSplit_one_record [] o1 T v1 b1 hp1 hT hb1
  simp only [List.nil_append] at h1
  rw [show splitInitState = (⟨[], [], []⟩ : SplitState) from rfl, h1]
  dsimp only
  rw [runSplit_one_record [o1 :: (b1 ++ [closeTagOf T])] o2 T v2 b2 hp2 hT hb2]
  simp

/-- C2 witness: the spec's own example, two adjacent `<AWARD>` records. -/
theorem two_adjacent_records_split_witness :
    get_nightly_records
      [lc "<AWARD>", lc "<DATE>0101", lc "</AWARD>",
       lc "<AWARD>", lc "<DATE>0102", lc "</AWARD>"] =
      .ok [[lc "<AWARD>", lc "<DATE>0101", lc "</AWARD>"],
           [lc "<AWARD>", lc "<DATE>0102", lc "</AWARD>"]] :=
  two_adjacent_records_split (lc "AWARD") [] [] (lc "<AWARD>") (lc "<AWARD>")
    [lc "<DATE>0101"] [lc "<DATE>0102"] (by decide) (by decide) (by decide)
    (by decide) (by decide)

/-- C9: if the input ends while a record is still open — an opening tag
line was lexed but no later line equals its closing tag — the splitter
silently discards the accumulated partial record: the result equals
that of the closed part of the input alone, and no error is raised for
the trailing fragment. -/
theorem trailing_open_record_discarded
    (startLines : List (List Char)) (res : List (List (List Char)))
    (openLine T v : List Char) (body : List (List Char))
    (hrun : runSplit splitInitState startLines = .ok ⟨res, [], []⟩)
    (hp : parse_line openLine = some (T, v))
    (hT : T ≠ [])
    (hbody : ∀ l ∈ body, l ≠ closeTagOf T) :
    get_nightly_records (startLines ++ openLine :: body) = .ok res := by
  unfold get_nightly_records
  rw [runSplit_append, hrun]
  dsimp only
  rw [runSplit_cons, splitStep_open res openLine T v hp]
  dsimp only
  rw [runSplit_in_record res [openLine] T hT body hbody]

/-- C9 witness: a complete `<AWARD>` record followed by an unclosed
`<FOO>` fragment yields only the complete record, with no error. -/
theorem trailing_open_record_discarded_witness :
    get_nightly_records
      [lc "<AWARD>", lc "</AWARD>", lc "<FOO>", lc "<BAR>x"] =
      .ok [[lc "<AWARD>", lc "</AWARD>"]] :=
  trailing_open_record_discarded [lc "<AWARD>", lc "</AWARD>"]
    [[lc "<AWARD>", lc "</AWARD>"]] (lc "<FOO>") (lc "FOO") [] [lc "<BAR>x"]
    (by decide) (by decide) (by decide) (by decide)

/-! ### Load-engine lemmas and C1 (idempotence) -/

/-- Some row of table `t` carries content hash `h`. -/
def HashPresent (db : DB) (t : List Char) (h : Val) : Prop :=
  ∃ r ∈ dbRows t db, rowHash r = some h

theorem dbRows_setRows_self (t : List Char) (rows : List Dict) (db : DB) :
    dbRows t (dbSetRows t rows db) = rows := by
  induction db with
  | nil => simp [dbRows, dbSetRows]
  | cons p rest ih =>
    obtain ⟨t2, r2⟩ := p
    by_cases h : t2 = t
    · simp [dbRows, dbSetRows, h]
    · simp [dbRows, dbSetRows, h, ih]

theorem dbRows_setRows_ne (t t2 : List Char) (rows : List Dict) (db : DB)
    (h : t2 ≠ t) : dbRows t (dbSetRows t2 rows db) = dbRows t db := by
  induction db with
  | nil => simp [dbRows, dbSetRows, h]
  | cons p rest ih =>
    obtain ⟨t3, r3⟩ := p
    by_cases h3 : t3 = t2
    · subst h3
      simp [dbRows, dbSetRows, h]
    · by_cases h4 : t3 = t
      · subst h4
        simp [dbRows, dbSetRows, h3]
      · simp [dbRows, dbSetRows, h3, h4, ih]

theorem mem_dbInsert_rows (db : DB) (t t2 : List Char) (row r0 : Dict)
    (h : r0 ∈ dbRows t db) : r0 ∈ dbRows t (dbInsert db t2 row) := by
  unfold dbInsert
  cases hh : rowHash row with
  | none =>
    dsimp only
    by_cases ht : t2 = t
    · subst ht
      rw [dbRows_setRows_self]
      exact List.mem_append_left _ h
    · rw [dbRows_setRows_ne _ _ _ _ ht]
      exact h
  | some hv =>
    dsimp only
    by_cases hany : (dbRows t2 db).any (fun r => decide (rowHash r = some hv)) = true
    · rw [if_pos hany]
      exact h
    · rw [if_neg hany]
      by_cases ht : t2 = t
      · subst ht
        rw [dbRows_setRows_self]
        exact List.mem_append_left _ h
      · rw [dbRows_setRows_ne _ _ _ _ ht]
        exact h

theorem hashPresent_dbInsert (db : DB) (t t2 : List Char) (row : Dict) (h : Val)
    (hp : HashPresent db t h) : HashPresent (dbInsert db t2 row) t h := by
  obtain ⟨r, hr, hrh⟩ := hp
  exact ⟨r, mem_dbInsert_rows db t t2 row r hr, hrh⟩

theorem hashPresent_runPairs (ps : List (List Char × Dict)) (db : DB)
    (t : List Char) (h : Val) (hp : HashPresent db t h) :
    HashPresent (runPairs ps db) t h := by
  induction ps generalizing db with
  | nil => exact hp
  | cons q rest ih =>
    obtain ⟨tq, rq⟩ := q
    exact ih _ (hashPresent_dbInsert db t tq rq h hp)

theorem dbInsert_present (db : DB) (t : List Char) (row : Dict) (h : Val)
    (hrow : rowHash row = some h) : HashPresent (dbInsert db t row) t h := by
  unfold dbInsert
  rw [hrow]
  dsimp only
  by_cases hany : (dbRows t db).any (fun r => decide (rowHash r = some h)) = true
  · rw [if_pos hany]
    obtain ⟨r, hr, hd⟩ := List.any_eq_true.mp hany
    exact ⟨r, hr, of_decide_eq_true hd⟩
  · rw [if_neg hany]
    refine ⟨row, ?_, hrow⟩
    rw [dbRows_setRows_self]
    exact List.mem_append_right _ (List.mem_singleton.mpr rfl)

theorem dbInsert_noop (db : DB) (t : List Char) (row : Dict) (h : Val)
    (hrow : rowHash row = some h) (hp : HashPresent db t h) :
    dbInsert db t row = db := by
  obtain ⟨r, hr, hrh⟩ := hp
  unfold dbInsert
  rw [hrow]
  dsimp only
  rw [if_pos (List.any_eq_true.mpr ⟨r, hr, decide_eq_true hrh⟩)]

theorem runPairs_presence (ps : List (List Char × Dict)) (db : DB) :
    ∀ p ∈ ps, ∀ h, rowHash p.2 = some h → HashPresent (runPairs ps db) p.1 h := by
  induction ps generalizing db with
  | nil =>
    intro p hp
    cases hp
  | cons q rest ih =>
    intro p hp h hrh
    obtain ⟨tq, rq⟩ := q
    rcases List.mem_cons.mp hp with heq | hmem
    · subst heq
      simp only [runPairs]
      exact hashPresent_runPairs rest _ _ _ (dbInsert_present db tq rq h hrh)
    · simp only [runPairs]
      exact ih _ p hmem h hrh

theorem runPairs_noop (ps : List (List Char × Dict)) (db : DB)
    (hpres : ∀ p ∈ ps, ∀ h, rowHash p.2 = some h → HashPresent db p.1 h)
    (hall : ∀ p ∈ ps, ∃ h, rowHash p.2 = some h) :
    runPairs ps db = db := by
  induction ps with
  | nil => rfl
  | cons q rest ih =>
    obtain ⟨tq, rq⟩ := q
    obtain ⟨h, hh⟩ := hall (tq, rq) (List.mem_cons_self _ _)
    have hnoop : dbInsert db tq rq = db :=
      dbInsert_noop db tq rq h hh (hpres (tq, rq) (List.mem_cons_self _ _) h hh)
    simp only [runPairs, hnoop]
    exact ih (fun p hp h2 hh2 => hpres p (List.mem_cons_of_mem _ hp) h2 hh2)
      (fun p hp => hall p (List.mem_cons_of_mem _ hp))

/-- Re-running a batch whose rows all carry a content hash is a no-op. -/
theorem runPairs_idem (ps : List (List Char × Dict)) (db : DB)
    (hall : ∀ p ∈ ps, ∃ h, rowHash p.2 = some h) :
    runPairs ps (runPairs ps db) = runPairs ps db :=
  runPairs_noop ps _ (fun p hp h hh => runPairs_presence ps db p hp h hh) hall

theorem pairsOf_addQuery (q : List Char) (e : List Char × Dict)
    (gs : List (List Char × List (List Char × Dict))) (p : List Char × Dict) :
    p ∈ pairsOf (addQuery q e gs) → p ∈ pairsOf gs ∨ p = e := by
  induction gs with
  | nil =>
    intro hp
    simp only [addQuery, pairsOf, List.append_nil] at hp
    exact Or.inr (List.mem_singleton.mp hp)
  | cons g rest ih =>
    obtain ⟨q2, es⟩ := g
    by_cases hq : q2 = q
    · intro hp
      simp only [addQuery, if_pos hq, pairsOf] at hp
      rcases List.mem_append.mp hp with h | h
      · rcases List.mem_append.mp h with h2 | h2
        · exact Or.inl (List.mem_append_left _ h2)
        · exact Or.inr (List.mem_singleton.mp h2)
      · exact Or.inl (List.mem_append_right _ h)
    · intro hp
      simp only [addQuery, if_neg hq, pairsOf] at hp
      rcases List.mem_append.mp hp with h | h
      · exact Or.inl (List.mem_append_left _ h)
      · rcases ih h with h2 | h2
        · exact Or.inl (List.mem_append_right _ h2)
        · exact Or.inr h2

/-- Every row built by `make_query_dict` carries its content hash. -/
theorem make_query_dict_hash (table : List Char) (d : Dict) :
    ∃ h, rowHash (make_query_dict table d).2 = some h := by
  refine ⟨Val.str (sha256Hex (joinSep (lc "|") ((dictValues d).map pyStr))), ?_⟩
  unfold make_query_dict rowHash
  dsimp only
  exact dictGet_set_self _ _ _

theorem processRecord_hash (st st2 : PState) (r : List (List Char))
    (h : processRecord st r = .ok st2)
    (hinv : ∀ p ∈ pairsOf st.groups, ∃ hh, rowHash p.2 = some hh) :
    ∀ p ∈ pairsOf st2.groups, ∃ hh, rowHash p.2 = some hh := by
  unfold processRecord at h
  cases r with
  | nil => exact absurd h (by simp)
  | cons first rest =>
    dsimp only at h
    cases hp : parse_line first with
    | none =>
      rw [hp] at h
      exact absurd h (by simp)
    | some tv =>
      obtain ⟨tag, und⟩ := tv
      rw [hp] at h
      dsimp only at h
      by_cases hc : lowerL tag ∈ classNamesLower
      · rw [if_neg (fun hcon => hcon hc)] at h
        cases hpn : parse_nightly (upperL (lowerL tag)) (first :: rest) with
        | err e =>
          rw [hpn] at h
          exact absurd h (by simp)
        | ok parsed =>
          rw [hpn] at h
          dsimp only at h
          injection h with h2
          subst h2
          intro p hp2
          rcases pairsOf_addQuery _ _ _ p hp2 with hmem | heq
          · exact hinv p hmem
          · subst heq
            exact make_query_dict_hash (lowerL tag) parsed
      · rw [if_pos hc] at h
        by_cases hmem : tag ∈ st.unhandled
        · rw [if_pos hmem] at h
          injection h with h2
          subst h2
          exact hinv
        · rw [if_neg hmem] at h
          injection h with h2
          subst h2
          exact hinv

theorem processRecords_hash (recs : List (List (List Char))) (st st2 : PState)
    (h : processRecords st recs = .ok st2)
    (hinv : ∀ p ∈ pairsOf st.groups, ∃ hh, rowHash p.2 = some hh) :
    ∀ p ∈ pairsOf st2.groups, ∃ hh, rowHash p.2 = some hh := by
  induction recs generalizing st with
  | nil =>
    simp only [processRecords] at h
    injection h with h2
    subst h2
    exact hinv
  | cons r rs ih =>
    simp only [processRecords] at h
    cases hr : processRecord st r with
    | err e =>
      rw [hr] at h
      exact absurd h (by simp)
    | ok st3 =>
      rw [hr] at h
      exact ih st3 h (processRecord_hash st st3 r hr hinv)

/-- C1: `etl_from_filename` is idempotent. For every feed file and
every starting database, if a run succeeds and produces database
`db1`, running the same file again on `db1` succeeds, changes nothing
(every record table keeps exactly the same rows — each re-parsed
record's sha256 hash collides with the `UNIQUE (sha256)` row already
present, and the `INSERT OR IGNORE` drops it), and logs the same
warnings. -/
theorem etl_from_filename_idempotent
    (lines : List (List Char)) (db db1 : DB) (w : List (List Char))
    (h : etl_from_filename lines db = .ok (db1, w)) :
    etl_from_filename lines db1 = .ok (db1, w) := by
  unfold etl_from_filename at *
  cases hp : parsePhase lines with
  | err e =>
    rw [hp] at h
    exact absurd h (by simp)
  | ok st =>
    rw [hp] at h
    dsimp only at h
    injection h with h2
    have hdb : runGroups st.groups db = db1 := congrArg Prod.fst h2
    have hw : st.warns = w := congrArg Prod.snd h2
    have hall : ∀ p ∈ pairsOf st.groups, ∃ hh, rowHash p.2 = some hh := by
      unfold parsePhase at hp
      cases hg : get_nightly_records lines with
      | err e =>
        rw [hg] at hp
        exact absurd hp (by simp)
      | ok recs =>
        rw [hg] at hp
        refine processRecords_hash recs pInit st hp ?_
        intro p hp2
        exact absurd hp2 (by simp [pInit, pairsOf])
    dsimp only
    rw [hw, ← hdb]
    unfold runGroups
    rw [runPairs_idem _ _ hall]

/-- A one-record feed file used to witness idempotence. -/
def demoLines : List (List Char) :=
  [lc "<AWARD>", lc "<DATE>0115", lc "<YEAR>23", lc "<LINK>x", lc "<URL>u",
   lc "</AWARD>"]

/-- The database produced by ingesting `demoLines` into an empty database. -/
def demoDB : DB :=
  [(lc "award",
    [[(lc "date", .date ⟨2023, 1, 15⟩),
      (lc "url", .str (lc "u")),
      (lc "sha256",
       .str (lc "5ebfba1c80faacb030e375a37c757137af61a3cb798a5d1900f225f23c040165"))]])]

set_option maxRecDepth 100000 in
/-- C1 witness: ingesting `demoLines` into the database that already
holds its rows returns that database unchanged. -/
theorem etl_from_filename_idempotent_witness :
    etl_from_filename demoLines demoDB = .ok (demoDB, []) :=
  etl_from_filename_idempotent demoLines [] demoDB [] (by decide)

/-! ### C8 — resumability: parsed files are skipped -/

/-- Processing any directory entry only ever appends to the activity
log: a message present before stays present after. -/
theorem stepFile_log_mono (st st2 : ETLState) (f : List Char × List (List Char))
    (m : List Char) (h : stepFile false st f = .ok st2) (hm : m ∈ st.log) :
    m ∈ st2.log := by
  unfold stepFile at h
  by_cases h1 : ¬ fboFile f.1 = true
  · rw [if_pos h1] at h
    injection h with h2
    subst h2
    exact hm
  · rw [if_neg h1] at h
    by_cases h2 : (false = false ∧ parsedInLog st.log f.1 = true)
    · rw [if_pos h2] at h
      injection h with h3
      subst h3
      exact hm
    · rw [if_neg h2] at h
      cases he : etl_from_filename f.2 st.db with
      | err e =>
        rw [he] at h
        exact absurd h (by simp)
      | ok p =>
        obtain ⟨db2, w⟩ := p
        rw [he] at h
        dsimp only at h
        injection h with h3
        subst h3
        exact List.mem_append_left _ hm

/-- C8: with the reparse flag false, a file whose name the activity
log already marks as parsed is skipped entirely by `etl_from_dir`:
whatever its content (it is never opened), the run's result — database
rows, log entries and warnings — is exactly that of the run without the
file. -/
theorem parsed_file_skipped (pre post : List (List Char × List (List Char)))
    (fname : List Char) (content : List (List Char)) (st : ETLState)
    (hlog : (lc "Parsed " ++ fname) ∈ st.log) :
    etl_from_dir false (pre ++ (fname, content) :: post) st =
      etl_from_dir false (pre ++ post) st := by
  induction pre generalizing st with
  | nil =>
    have hskip : stepFile false st (fname, content) = .ok st := by
      unfold stepFile
      by_cases h1 : ¬ fboFile fname = true
      · rw [if_pos h1]
      · rw [if_neg h1, if_pos ⟨rfl, decide_eq_true hlog⟩]
    simp only [List.nil_append, etl_from_dir, hskip]
  | cons f pre2 ih =>
    simp only [List.cons_append, etl_from_dir]
    cases hs : stepFile false st f with
    | err e => rfl
    | ok st2 => exact ih st2 (stepFile_log_mono st st2 f _ hs hlog)

/-- C8 witness: a directory run where the only file is already marked
parsed; its content is a line that would make ingestion fail if the
file were ever opened, and the state is returned unchanged. -/
theorem parsed_file_skipped_witness :
    etl_from_dir false [(lc "FBOFeed20180214", [lc "no tag here"])]
        ⟨[], [lc "Parsed FBOFeed20180214"], []⟩ =
      etl_from_dir false [] ⟨[], [lc "Parsed FBOFeed20180214"], []⟩ :=
  parsed_file_skipped [] [] (lc "FBOFeed20180214") [lc "no tag here"]
    ⟨[], [lc "Parsed FBOFeed20180214"], []⟩ (by decide)

/-! ### C7 — unknown record types -/

/-- The tag of a record's first line, as `etl_from_filename` reads it. -/
def recHeadTag : List (List Char) → Option (List Char)
  | [] => none
  | first :: _ => (parse_line first).map (fun p => p.1)

/-- `warnMsg` only repeats a tag after its fixed text, so it is injective. -/
theorem warnMsg_injective : Function.Injective warnMsg := by
  intro a b hab
  exact List.append_cancel_left hab

/-- One record's effect on the unknown-tag bookkeeping of
`etl_from_filename`: warnings stay the image of the `unhandled` list,
the `unhandled` list stays duplicate-free, a tag is in it afterwards
exactly when it was already there or this record's head carries it and
it is unknown, and all insert pairs keep targeting known tables. -/
theorem processRecord_c7 (st st2 : PState) (r : List (List Char))
    (h : processRecord st r = .ok st2) :
    (st.warns = st.unhandled.map warnMsg → st2.warns = st2.unhandled.map warnMsg) ∧
    (st.unhandled.Nodup → st2.unhandled.Nodup) ∧
    (∀ tag, tag ∈ st2.unhandled ↔
      (tag ∈ st.unhandled ∨
        (¬ lowerL tag ∈ classNamesLower ∧ recHeadTag r = some tag))) ∧
    ((∀ p ∈ pairsOf st.groups, p.1 ∈ classNamesLower) →
      ∀ p ∈ pairsOf st2.groups, p.1 ∈ classNamesLower) := by
  unfold processRecord at h
  cases r with
  | nil => exact absurd h (by simp)
  | cons first rest =>
    dsimp only at h
    cases hp : parse_line first with
    | none =>
      rw [hp] at h
      exact absurd h (by simp)
    | some tv =>
      obtain ⟨tag0, und⟩ := tv
      rw [hp] at h
      dsimp only at h
      have hhead : recHeadTag (first :: rest) = some tag0 := by
        show (parse_line first).map (fun p => p.1) = some tag0
        rw [hp]
        rfl
      by_cases hc : lowerL tag0 ∈ classNamesLower
      · rw [if_neg (fun hcon => hcon hc)] at h
        cases hpn : parse_nightly (upperL (lowerL tag0)) (first :: rest) with
        | err e =>
          rw [hpn] at h
          exact absurd h (by simp)
        | ok parsed =>
          rw [hpn] at h
          dsimp only at h
          injection h with h2
          subst h2
          refine ⟨fun h1 => h1, fun h1 => h1, fun tag => ?_, fun h1 p hp2 => ?_⟩
          · constructor
            · exact fun hm => Or.inl hm
            · rintro (hm | ⟨hnk, heq⟩)
              · exact hm
              · rw [hhead] at heq
                exact absurd hc (Option.some.inj heq ▸ hnk)
          · rcases pairsOf_addQuery _ _ _ p hp2 with hmem | heq
            · exact h1 p hmem
            · rw [heq]
              exact hc
      · rw [if_pos hc] at h
        by_cases hmem : tag0 ∈ st.unhandled
        · rw [if_pos hmem] at h
          injection h with h2
          subst h2
          refine ⟨fun h1 => h1, fun h1 => h1, fun tag => ?_, fun h1 => h1⟩
          constructor
          · exact fun hm => Or.inl hm
          · rintro (hm | ⟨hnk, heq⟩)
            · exact hm
            · rw [hhead] at heq
              exact Option.some.inj heq ▸ hmem
        · rw [if_neg hmem] at h
          injection h with h2
          subst h2
          refine ⟨fun h1 => ?_, fun h1 => ?_, fun tag => ?_, fun h1 => h1⟩
          · dsimp only
            rw [List.map_append, h1]
            rfl
          · dsimp only
            rw [List.nodup_append]
            refine ⟨h1, List.nodup_singleton _, fun x hx hx2 => ?_⟩
            rw [List.mem_singleton.mp hx2] at hx
            exact hmem hx
          · dsimp only
            rw [List.mem_append, List.mem_singleton, hhead]
            constructor
            · rintro (hm | rfl)
              · exact Or.inl hm
              · exact Or.inr ⟨hc, rfl⟩
            · rintro (hm | ⟨hnk, heq⟩)
              · exact Or.inl hm
              · exact Or.inr (Option.some.inj heq).symm

set_option maxHeartbeats 800000 in
/-- The unknown-tag bookkeeping over a whole record list. -/
theorem processRecords_c7 (recs : List (List (List Char))) (st st2 : PState)
    (h : processRecords st recs = .ok st2) :
    (st.warns = st.unhandled.map warnMsg → st2.warns = st2.unhandled.map warnMsg) ∧
    (st.unhandled.Nodup → st2.unhandled.Nodup) ∧
    (∀ tag, tag ∈ st2.unhandled ↔
      (tag ∈ st.unhandled ∨
        (¬ lowerL tag ∈ classNamesLower ∧ ∃ r ∈ recs, recHeadTag r = some tag))) ∧
    ((∀ p ∈ pairsOf st.groups, p.1 ∈ classNamesLower) →
      ∀ p ∈ pairsOf st2.groups, p.1 ∈ classNamesLower) := by
  induction recs generalizing st with
  | nil =>
    simp only [processRecords] at h
    injection h with h2
    subst h2
    refine ⟨fun h1 => h1, fun h1 => h1, fun tag => ?_, fun h1 => h1⟩
    simp
  | cons r rs ih =>
    simp only [processRecords] at h
    cases hr : processRecord st r with
    | err e =>
      rw [hr] at h
      exact absurd h (by simp)
    | ok st3 =>
      rw [hr] at h
      have pr := processRecord_c7 st st3 r hr
      have rr := ih st3 h
      refine ⟨fun h1 => rr.1 (pr.1 h1), fun h1 => rr.2.1 (pr.2.1 h1),
        fun tag => ?_, fun h1 => rr.2.2.2 (pr.2.2.2 h1)⟩
      rw [rr.2.2.1 tag, pr.2.2.1 tag, List.exists_mem_cons_iff]
      constructor
      · rintro ((hm | ⟨hnk, hr2⟩) | ⟨hnk, hrs⟩)
        · exact Or.inl hm
        · exact Or.inr ⟨hnk, Or.inl hr2⟩
        · exact Or.inr ⟨hnk, Or.inr hrs⟩
      · rintro (hm | ⟨hnk, hr2 | hrs⟩)
        · exact Or.inl (Or.inl hm)
        · exact Or.inl (Or.inr ⟨hnk, hr2⟩)
        · exact Or.inr ⟨hnk, hrs⟩

/-- C7 (amended): within one file's ingestion, a record whose opening
tag names no registered record-type class produces no insert (every
insert pair targets a registered table name), and exactly one warning
is logged per distinct unknown tag of the file: the warning list has no
duplicates and holds the warning for a tag exactly when some record of
the file opens with that unknown tag. The `unhandled` list is rebuilt
per `etl_from_filename` call, so a later file in the same run repeats
the warning (see the counterexample). -/
theorem unknown_tag_once_per_file (recs : List (List (List Char))) (st2 : PState)
    (h : processRecords pInit recs = .ok st2) :
    st2.warns.Nodup ∧
    (∀ tag, warnMsg tag ∈ st2.warns ↔
      (¬ lowerL tag ∈ classNamesLower ∧ ∃ r ∈ recs, recHeadTag r = some tag)) ∧
    (∀ p ∈ pairsOf st2.groups, p.1 ∈ classNamesLower) := by
  have pc := processRecords_c7 recs pInit st2 h
  have hw : st2.warns = st2.unhandled.map warnMsg := pc.1 rfl
  have hnd : st2.unhandled.Nodup := pc.2.1 List.nodup_nil
  refine ⟨?_, ?_, pc.2.2.2 (fun p hp => absurd hp (by simp [pInit, pairsOf]))⟩
  · rw [hw]
    exact hnd.map warnMsg_injective
  · intro tag
    have hmm : warnMsg tag ∈ st2.warns ↔ tag ∈ st2.unhandled := by
      rw [hw]
      constructor
      · intro hx
        obtain ⟨x, hx2, hx3⟩ := List.mem_map.mp hx
        rw [← warnMsg_injective hx3]
        exact hx2
      · exact fun hx => List.mem_map_of_mem warnMsg hx
    rw [hmm, pc.2.2.1 tag]
    simp [pInit]

/-- Two records with the same unknown tag, as one file's record list. -/
def c7recs : List (List (List Char)) :=
  [[lc "<FOO>", lc "</FOO>"], [lc "<FOO>", lc "</FOO>"]]

/-- The record-loop state after processing `c7recs`: one warning. -/
def c7state : PState :=
  ⟨[lc "FOO"], [lc "Unhandled record type: FOO"], []⟩

/-- C7 witness: the file with two `FOO` records warns exactly once. -/
theorem unknown_tag_once_per_file_witness :
    c7state.warns.Nodup ∧ warnMsg (lc "FOO") ∈ c7state.warns :=
  ⟨(unknown_tag_once_per_file c7recs c7state (by decide)).1,
   ((unknown_tag_once_per_file c7recs c7state (by decide)).2.1 (lc "FOO")).mpr
     ⟨by decide, [lc "<FOO>", lc "</FOO>"], by decide, by decide⟩⟩

/-- Two files, each holding one record with the same unknown tag. -/
def c7files : List (List Char × List (List Char)) :=
  [(lc "FBOFeed1", [lc "<FOO>", lc "</FOO>"]),
   (lc "FBOFeed2", [lc "<FOO>", lc "</FOO>"])]

/-- C7 counterexample: the `unhandled` list is local to each
`etl_from_filename` call, so a run over two files that both hold the
unknown tag `FOO` logs the same warning twice — not once per run as the
claim states. -/
theorem unknown_tag_warns_again_counterexample :
    etl_from_dir false c7files ⟨[], [], []⟩ =
      .ok ⟨[], [lc "Parsed FBOFeed1", lc "Parsed FBOFeed2"],
           [lc "Unhandled record type: FOO", lc "Unhandled record type: FOO"]⟩ ∧
    ¬ ([lc "Unhandled record type: FOO", lc "Unhandled record type: FOO"] :
        List (List Char)).Nodup := by
  constructor
  · decide
  · decide

/-! ### C10 — the uninitialized previous-tag state -/

/-- A record-marker line: not a carriage-return continuation, and its
tag is the record's own opening or closing marker (skipped without
touching the tag history). -/
def markerLine (recordType line : List Char) : Prop :=
  line.getLast? ≠ some '\r' ∧
  ∃ t v, parse_line line = some (t, v) ∧ (t = recordType ∨ t = '/' :: recordType)

/-- A continuation-style line: one ending in a carriage return, one
with no parseable tag, or one whose tag is on the ignore list — all
three branches append to `record[prev.lower()]`. -/
def contLine (recordType line : List Char) : Prop :=
  line.getLast? = some '\r' ∨
  (line.getLast? ≠ some '\r' ∧ parse_line line = none) ∨
  (line.getLast? ≠ some '\r' ∧
    ∃ t v, parse_line line = some (t, v) ∧ t ≠ recordType ∧
      t ≠ '/' :: recordType ∧ is_ignored_tag t = true)

/-- An ordinary field-producing tag line: lexable, no carriage-return
ending, not a record marker, not on the ignore list (`DESC` included). -/
def fieldLine (recordType line : List Char) : Prop :=
  line.getLast? ≠ some '\r' ∧
  ∃ t v, parse_line line = some (t, v) ∧ t ≠ recordType ∧
    t ≠ '/' :: recordType ∧ is_ignored_tag t = false

theorem pnStep_marker (rt : List Char) (st : PNState) (l : List Char)
    (hm : markerLine rt l) : pnStep rt st l = .ok st := by
  obtain ⟨hcr, t, v, hp, hor⟩ := hm
  unfold pnStep
  rw [if_neg hcr, hp]
  dsimp only
  rw [if_pos hor]

theorem runPN_markers (rt : List Char) (st : PNState) (ms : List (List Char))
    (hm : ∀ l ∈ ms, markerLine rt l) : runPN rt st ms = .ok st := by
  induction ms with
  | nil => rfl
  | cons l ls ih =>
    simp only [runPN, pnStep_marker rt st l (hm l (List.mem_cons_self l ls))]
    exact ih (fun x hx => hm x (List.mem_cons_of_mem l hx))

/-- With no previous tag recorded, every continuation-style line
dereferences `None` — the Python `AttributeError` from
`None.lower()`. -/
theorem pnStep_contLine_attr (rt : List Char) (st : PNState) (l : List Char)
    (hc : contLine rt l) (hprev : st.prev = none) :
    pnStep rt st l = .err .attrError := by
  rcases hc with hcr | ⟨hncr, hpn⟩ | ⟨hncr, t, v, hp, hnrt, hnsrt, hig⟩
  · unfold pnStep
    rw [if_pos hcr]
    unfold contAppend
    rw [hprev]
  · unfold pnStep
    rw [if_neg hncr, hpn]
    dsimp only
    unfold contAppend
    rw [hprev]
  · have hnd : t ≠ lc "DESC" := by
      intro hteq
      rw [hteq] at hig
      exact absurd hig (by decide)
    unfold pnStep
    rw [if_neg hncr, hp]
    dsimp only
    rw [if_neg (by rintro (h | h) <;> [exact hnrt h; exact hnsrt h]), if_neg hnd,
        if_pos hig]
    unfold contAppend
    rw [hprev]

/-- With a previous tag recorded, a continuation append never raises
the `AttributeError` and keeps the previous tag. -/
theorem contAppend_prev_some (st : PNState) (sep l : List Char) (p : List Char)
    (hp : st.prev = some p) :
    (∀ e, contAppend st sep l = .err e → e ≠ .attrError) ∧
    (∀ st2, contAppend st sep l = .ok st2 → st2.prev = some p) := by
  unfold contAppend
  rw [hp]
  dsimp only
  cases hg : dictGet (lowerL p) st.record with
  | none =>
    refine ⟨fun e he => ?_, fun st2 hok => absurd hok (by simp)⟩
    injection he with h2
    rw [← h2]
    simp
  | some v =>
    cases v with
    | str s =>
      dsimp only [valStr]
      refine ⟨fun e he => absurd he (by simp), fun st2 hok => ?_⟩
      injection hok with h2
      subst h2
      rfl
    | date d =>
      dsimp only [valStr]
      refine ⟨fun e he => ?_, fun st2 hok => absurd hok (by simp)⟩
      injection he with h2
      rw [← h2]
      simp

/-- With a previous tag recorded, one assembler step never raises the
`AttributeError`, and any successful step leaves a previous tag
recorded. -/
theorem pnStep_no_attr (rt : List Char) (st : PNState) (l : List Char)
    (p : List Char) (hp : st.prev = some p) :
    (∀ e, pnStep rt st l = .err e → e ≠ .attrError) ∧
    (∀ st2, pnStep rt st l = .ok st2 → ∃ q, st2.prev = some q) := by
  unfold pnStep
  by_cases hcr : l.getLast? = some '\r'
  · rw [if_pos hcr]
    have hca := contAppend_prev_some st [] l p hp
    exact ⟨hca.1, fun st2 hok => ⟨p, hca.2 st2 hok⟩⟩
  · rw [if_neg hcr]
    cases hpl : parse_line l with
    | none =>
      dsimp only
      have hca := contAppend_prev_some st [] l p hp
      exact ⟨hca.1, fun st2 hok => ⟨p, hca.2 st2 hok⟩⟩
    | some tv =>
      obtain ⟨t, v⟩ := tv
      dsimp only
      by_cases hmk : t = rt ∨ t = '/' :: rt
      · rw [if_pos hmk]
        refine ⟨fun e he => absurd he (by simp), fun st2 hok => ?_⟩
        injection hok with h2
        subst h2
        exact ⟨p, hp⟩
      · rw [if_neg hmk]
        by_cases hdesc : t = lc "DESC"
        · rw [if_pos hdesc]
          by_cases hl : st.prevprev = some (lc "LINK")
          · rw [if_pos hl]
            refine ⟨fun e he => absurd he (by simp), fun st2 hok => ?_⟩
            injection hok with h2
            subst h2
            exact ⟨lc "url_desc", rfl⟩
          · rw [if_neg hl]
            by_cases he2 : st.prevprev = some (lc "EMAIL")
            · rw [if_pos he2]
              refine ⟨fun e he => absurd he (by simp), fun st2 hok => ?_⟩
              injection hok with h2
              subst h2
              exact ⟨lc "email_desc", rfl⟩
            · rw [if_neg he2]
              refine ⟨fun e he => absurd he (by simp), fun st2 hok => ?_⟩
              injection hok with h2
              subst h2
              exact ⟨lc "DESC", rfl⟩
        · rw [if_neg hdesc]
          by_cases hig : is_ignored_tag t = true
          · rw [if_pos hig]
            have hca := contAppend_prev_some st (lc "\n") l p hp
            exact ⟨hca.1, fun st2 hok => ⟨p, hca.2 st2 hok⟩⟩
          · rw [if_neg hig]
            refine ⟨fun e he => absurd he (by simp), fun st2 hok => ?_⟩
            injection hok with h2
            subst h2
            exact ⟨t, rfl⟩

theorem runPN_no_attr (rt : List Char) (lines : List (List Char)) (st : PNState)
    (hprev : ∃ p, st.prev = some p) :
    runPN rt st lines ≠ .err .attrError := by
  induction lines generalizing st with
  | nil => simp [runPN]
  | cons l ls ih =>
    obtain ⟨p, hp⟩ := hprev
    simp only [runPN]
    cases hs : pnStep rt st l with
    | err e =>
      intro hcon
      injection hcon with h2
      exact (pnStep_no_attr rt st l p hp).1 e hs h2
    | ok st2 =>
      exact ih st2 ((pnStep_no_attr rt st l p hp).2 st2 hs)

theorem fix_date_no_attr (d y : List Char) : fix_date d y ≠ .err .attrError := by
  unfold fix_date
  cases pyNat y with
  | none => simp
  | some y0 =>
    dsimp only
    cases pyNat (d.take 2) with
    | none => simp
    | some m =>
      cases pyNat ((d.drop 2).take 2) with
      | none => simp
      | some dd =>
        dsimp only
        by_cases hv : validDate
            (if y0 < 90 then y0 + 2000 else if y0 ≤ 99 then y0 + 1900 else y0)
            m dd = true
        · rw [if_pos hv]
          simp
        · rw [if_neg hv]
          simp

theorem valStr_no_attr (v : Val) : valStr v ≠ .err .attrError := by
  cases v <;> simp [valStr]

theorem cleanupMain_no_attr (r2 : Dict) : cleanupMain r2 ≠ .err .attrError := by
  unfold cleanupMain
  dsimp only
  cases dictGet (lc "date") (applyRenames r2) with
  | none => simp
  | some dv =>
    dsimp only
    cases dictGet (lc "year") (applyRenames r2) with
    | none => simp
    | some yv =>
      dsimp only
      cases hd : valStr dv with
      | err e => cases valStr yv <;> simp
      | ok ds =>
        cases valStr yv with
        | err e => simp
        | ok ys =>
          dsimp only
          cases hfd : fix_date ds ys with
          | err e =>
            have h0 := fix_date_no_attr ds ys
            rw [hfd] at h0
            have hne : e ≠ .attrError := fun hcon => h0 (by rw [hcon])
            dsimp only
            intro hcon
            injection hcon with h2
            exact hne h2
          | ok dd =>
            dsimp only
            simp

theorem cleanup_no_attr (r : Dict) : cleanup r ≠ .err .attrError := by
  unfold cleanup
  dsimp only
  cases dictGet (lc "respdate") (dictRemove (lc "link") r) with
  | none => exact cleanupMain_no_attr _
  | some v =>
    dsimp only
    cases hvs : valStr v with
    | err e =>
      have := valStr_no_attr v
      rw [hvs] at this
      dsimp only
      intro hcon
      injection hcon with h2
      exact this (h2 ▸ rfl)
    | ok s =>
      dsimp only
      cases hfd : fix_date (s.take 4) ((s.drop 4).take 2) with
      | err e =>
        have := fix_date_no_attr (s.take 4) ((s.drop 4).take 2)
        rw [hfd] at this
        dsimp only
        intro hcon
        injection hcon with h2
        exact this (h2 ▸ rfl)
      | ok dd =>
        dsimp only
        exact cleanupMain_no_attr _

/-- On a successful step, an ordinary field tag line always records a
previous tag. -/
theorem pnStep_field_ok (rt : List Char) (st : PNState) (l : List Char)
    (hf : fieldLine rt l) :
    ∃ st2, pnStep rt st l = .ok st2 ∧ ∃ q, st2.prev = some q := by
  obtain ⟨hcr, t, v, hp, hnrt, hnsrt, hig⟩ := hf
  unfold pnStep
  rw [if_neg hcr, hp]
  dsimp only
  rw [if_neg (by rintro (h | h) <;> [exact hnrt h; exact hnsrt h])]
  by_cases hdesc : t = lc "DESC"
  · rw [if_pos hdesc]
    by_cases hl : st.prevprev = some (lc "LINK")
    · rw [if_pos hl]
      exact ⟨_, rfl, lc "url_desc", rfl⟩
    · rw [if_neg hl]
      by_cases he2 : st.prevprev = some (lc "EMAIL")
      · rw [if_pos he2]
        exact ⟨_, rfl, lc "email_desc", rfl⟩
      · rw [if_neg he2]
        exact ⟨_, rfl, lc "DESC", rfl⟩
  · rw [if_neg hdesc, if_neg (by rw [hig]; exact Bool.false_ne_true)]
    exact ⟨_, rfl, t, rfl⟩

theorem runPN_append (rt : List Char) (st : PNState) (l1 l2 : List (List Char)) :
    runPN rt st (l1 ++ l2) =
      match runPN rt st l1 with
      | .ok st2 => runPN rt st2 l2
      | .err e => .err e := by
  induction l1 generalizing st with
  | nil => simp [runPN]
  | cons l ls ih =>
    simp only [List.cons_append, runPN]
    cases pnStep rt st l with
    | ok st2 => exact ih st2
    | err e => rfl

/-- C10: the assembler is total only when a field-producing tag line
comes before any continuation-style line. For any record that opens
with marker lines and then hits a carriage-return line, an unlexable
line or an ignore-list tag line, `parse_nightly` dereferences the
uninitialized previous-tag state (`None`) and fails with the untyped
`AttributeError` — not a `ParseError`. When an ordinary field tag line
comes first instead, that error branch is unreachable for the whole
record, whatever follows. -/
theorem parse_nightly_none_deref
    (recordType : List Char) (markers : List (List Char))
    (badline goodline : List Char) (rest : List (List Char))
    (hmk : ∀ l ∈ markers, markerLine recordType l) :
    (contLine recordType badline →
      parse_nightly recordType (markers ++ badline :: rest) = .err .attrError) ∧
    (fieldLine recordType goodline →
      parse_nightly recordType (markers ++ goodline :: rest) ≠ .err .attrError) := by
  constructor
  · intro hc
    unfold parse_nightly
    rw [runPN_append, runPN_markers recordType pnInit markers hmk]
    dsimp only
    rw [runPN, pnStep_contLine_attr recordType pnInit badline hc rfl]
  · intro hf
    unfold parse_nightly
    rw [runPN_append, runPN_markers recordType pnInit markers hmk]
    dsimp only
    obtain ⟨st2, hok, q, hq⟩ := pnStep_field_ok recordType pnInit goodline hf
    rw [runPN, hok]
    dsimp only
    cases hrun : runPN recordType st2 rest with
    | err e =>
      have h0 := runPN_no_attr recordType rest st2 ⟨q, hq⟩
      rw [hrun] at h0
      have hne : e ≠ .attrError := fun hcon => h0 (by rw [hcon])
      dsimp only
      intro hcon
      injection hcon with h2
      exact hne h2
    | ok stf =>
      dsimp only
      exact cleanup_no_attr stf.record

/-- C10 witness: after the `<AWARD>` marker, an ignore-list `<p>` line
hits the `AttributeError`, while an ordinary `<DATE>` line first makes
that branch unreachable (the record still fails, but with the
`KeyError('year')` of `cleanup`, not the `AttributeError`). -/
theorem parse_nightly_none_deref_witness :
    parse_nightly (lc "AWARD") [lc "<AWARD>", lc "<p>x"] = .err .attrError ∧
    parse_nightly (lc "AWARD") [lc "<AWARD>", lc "<DATE>0115"] ≠ .err .attrError ∧
    parse_nightly (lc "AWARD") [lc "<AWARD>", lc "<DATE>0115"] =
      .err (.keyError (lc "year")) :=
  ⟨(parse_nightly_none_deref (lc "AWARD") [lc "<AWARD>"] (lc "<p>x") (lc "<DATE>0115")
      [] (by intro l hl
             rw [List.mem_singleton.mp hl]
             exact ⟨by decide, lc "AWARD", [], by decide, Or.inl rfl⟩)).1
    (Or.inr (Or.inr ⟨by decide, lc "p", lc "x", by decide, by decide, by decide, by decide⟩)),
   (parse_nightly_none_deref (lc "AWARD") [lc "<AWARD>"] (lc "<p>x") (lc "<DATE>0115")
      [] (by intro l hl
             rw [List.mem_singleton.mp hl]
             exact ⟨by decide, lc "AWARD", [], by decide, Or.inl rfl⟩)).2
    ⟨by decide, lc "DATE", lc "0115", by decide, by decide, by decide, by decide⟩,
   by decide⟩
